/-
Verification of the compression/decompression core of the
Compression_Decompression_Portal repository.

The embedding models the two codec families of the repository:
  * Huffman coding (`src/unnamed/part_000`): frequency table, min-heap,
    tree construction, code generation, bit packing, tree (de)serialization,
    `huffmanCompress` / `huffmanDecompress`.
  * Run-length encoding (`src/backend/algorithms/rle.js`):
    `rleCompress` / `rleDecompress` and the adaptive variant
    `rleCompressAdvanced` / `rleDecompressAdvanced`.

Modelling conventions used throughout:
  * A JavaScript input value (character string or byte array) is a
    `JsValue σ`: the constructor records the domain (`str`/`arr`) and the
    payload is the list of symbols (a string is its list of characters).
  * JavaScript exceptions are modelled with `Except String`, carrying the
    exact message string thrown by the source.
  * Possibly-missing (undefined) JavaScript object fields are modelled
    with `Option`.
  * JavaScript `null` values that can flow into decoded output (a Huffman
    tree node whose `char` is `null`) make decoded symbol lists have type
    `List (Option σ)`; `none` models `null`/`undefined`/`NaN` artifacts.
    A decoded JS string is represented by the list of its (possibly null)
    symbols, `JsResult.str`; `Array.prototype.join` and the final
    `parseInt` conversion of `huffmanDecompress` are the identity on
    actual symbols, so `JsResult.str l` denotes the join of `l` and
    `JsResult.arr l` the mapped array.
  * Loops whose index advances by a computed amount are modelled by
    structural recursion on an explicit fuel argument; all call sites pass
    a fuel that provably suffices (each iteration consumes at least one
    element / strictly decreases the index).
-/
import Mathlib

set_option maxRecDepth 4096

deriving instance DecidableEq for Except

/-- A JavaScript input value for the codecs: a string (list of its
characters) or an array of symbols.  `Array.isArray` distinguishes the
two at every call site of the source. -/
inductive JsValue (σ : Type) where
  | str (l : List σ)
  | arr (l : List σ)
deriving DecidableEq

/-- The underlying symbol sequence of a `JsValue` (the source indexes
strings and arrays uniformly with `data[i]`). -/
def JsValue.list {σ : Type} : JsValue σ → List σ
  | .str l => l
  | .arr l => l

/-- `Array.isArray data` of the source. -/
def JsValue.isArr {σ : Type} : JsValue σ → Bool
  | .str _ => false
  | .arr _ => true

/-- A decompression result: either an array of (possibly `null`) symbols
or a string (represented by the list of joined symbols; `none` joins as
the empty string, mirroring `Array.prototype.join` on `null`). -/
inductive JsResult (σ : Type) where
  | str (l : List (Option σ))
  | arr (l : List (Option σ))
deriving DecidableEq

/-- The result a decoder must produce to round-trip a given input:
the same symbols, in the same domain. -/
def JsValue.toResult {σ : Type} : JsValue σ → JsResult σ
  | .str l => .str (l.map some)
  | .arr l => .arr (l.map some)

/-! ## Run-length encoding (`src/backend/algorithms/rle.js`) -/

/-- A compressed RLE item as the duck-typed JS object
`{type, element?, count?, elements?}`.  The encoders only populate the
fields their `type` uses; the decoders read fields based on `type`. -/
structure RleItemJS (σ : Type) where
  type : String
  element : Option σ
  count : Option Nat
  elements : Option (List σ)
deriving DecidableEq

/-- The compressed RLE payload
`{compressed, originalLength, isArrayData}` (the advanced encoder also
sets `algorithm = 'advanced_rle'`).  `Option` models missing fields of a
hand-crafted payload. -/
structure RlePayload (σ : Type) where
  compressed : Option (List (RleItemJS σ))
  originalLength : Option Nat
  isArrayData : Option Bool
  algorithm : Option String
deriving DecidableEq

/-- The inner `while` of the scan loops: the number of elements at the
head of `l` equal to `x` (the source counts `data[i+count] === current`
starting from the element after position `i`). -/
def countRun {σ : Type} [DecidableEq σ] (x : σ) : List σ → Nat
  | [] => 0
  | y :: rest => if y = x then countRun x rest + 1 else 0

/-- The scan loop of `rleCompress` (lines 13-40 of rle.js), on the
remaining input; `fuel` bounds the iteration count (each iteration
consumes `count ≥ 1` elements, so `fuel = length` suffices). -/
def rleCompressCore {σ : Type} [DecidableEq σ] : Nat → List σ → List (RleItemJS σ)
  | 0, _ => []
  | _ + 1, [] => []
  | fuel + 1, x :: rest =>
    let count := 1 + countRun x rest
    (if count > 1 then RleItemJS.mk "run" (some x) (some count) none
     else RleItemJS.mk "single" (some x) none none)
      :: rleCompressCore fuel (rest.drop (count - 1))

/-- `rleCompress(data)` (rle.js lines 3-47).  `none` models an absent
argument; absent or zero-length input throws `'Input data is empty'`. -/
def rleCompress {σ : Type} [DecidableEq σ] (input : Option (JsValue σ)) :
    Except String (RlePayload σ) :=
  match input with
  | none => .error "Input data is empty"
  | some v =>
    if v.list = [] then .error "Input data is empty"
    else .ok ⟨some (rleCompressCore v.list.length v.list), some v.list.length,
              some v.isArr, none⟩

/-- The item-expansion loop of `rleDecompress` (rle.js lines 57-69):
`'run'` pushes `count` copies of `element`, `'single'` pushes `element`,
any other tag throws `'Invalid compressed item type'`.  A missing
`count` makes the `for` loop run zero times (`i < undefined` is false). -/
def rleExpandBasic {σ : Type} : List (RleItemJS σ) → Except String (List (Option σ))
  | [] => .ok []
  | it :: its =>
    if it.type = "run" then
      (rleExpandBasic its).map (fun r => List.replicate (it.count.getD 0) it.element ++ r)
    else if it.type = "single" then
      (rleExpandBasic its).map (fun r => it.element :: r)
    else .error "Invalid compressed item type"

/-- `rleDecompress(compressedData)` (rle.js lines 49-82).  A falsy
payload or missing `compressed` field throws
`'Invalid compressed data format'`; after expansion, a decoded length
differing from `originalLength` throws the length-mismatch error. -/
def rleDecompress {σ : Type} (input : Option (RlePayload σ)) :
    Except String (JsResult σ) :=
  match input with
  | none => .error "Invalid compressed data format"
  | some p =>
    match p.compressed with
    | none => .error "Invalid compressed data format"
    | some items =>
      match rleExpandBasic items with
      | .error e => .error e
      | .ok decoded =>
        if p.originalLength = some decoded.length then
          .ok (if p.isArrayData.getD false then .arr decoded else .str decoded)
        else .error "Decompression failed: length mismatch"

/-- The sequence-collection loop of `rleCompressAdvanced` (rle.js lines
125-146): starting from `acc = [current]`, keep appending the next
element while it does not begin a run of length ≥ 2 and the sequence
holds fewer than 255 symbols.  Returns the collected sequence and the
unconsumed remainder.  Each iteration consumes one element, so
`fuel = length of the remainder` suffices. -/
def collectSeq {σ : Type} [DecidableEq σ] : Nat → List σ → List σ → List σ × List σ
  | 0, acc, l => (acc, l)
  | _ + 1, acc, [] => (acc, [])
  | fuel + 1, acc, x :: rest =>
    if acc.length < 255 then
      if 1 + countRun x rest ≥ 2 then (acc, x :: rest)
      else collectSeq fuel (acc ++ [x]) rest
    else (acc, x :: rest)

/-- The scan loop of `rleCompressAdvanced` (rle.js lines 95-153):
`count ≥ 4` emits a `'run'`, `count ∈ [2,3]` a `'short_run'`, and a
single element starts a `'sequence'` collected by `collectSeq`. -/
def rleCompressAdvCore {σ : Type} [DecidableEq σ] : Nat → List σ → List (RleItemJS σ)
  | 0, _ => []
  | _ + 1, [] => []
  | fuel + 1, x :: rest =>
    let count := 1 + countRun x rest
    if count ≥ 4 then
      RleItemJS.mk "run" (some x) (some count) none
        :: rleCompressAdvCore fuel (rest.drop (count - 1))
    else if count ≥ 2 then
      RleItemJS.mk "short_run" (some x) (some count) none
        :: rleCompressAdvCore fuel (rest.drop (count - 1))
    else
      let sr := collectSeq rest.length [x] rest
      RleItemJS.mk "sequence" none none (some sr.1) :: rleCompressAdvCore fuel sr.2

/-- `rleCompressAdvanced(data)` (rle.js lines 85-161). -/
def rleCompressAdvanced {σ : Type} [DecidableEq σ] (input : Option (JsValue σ)) :
    Except String (RlePayload σ) :=
  match input with
  | none => .error "Input data is empty"
  | some v =>
    if v.list = [] then .error "Input data is empty"
    else .ok ⟨some (rleCompressAdvCore v.list.length v.list), some v.list.length,
              some v.isArr, some "advanced_rle"⟩

/-- The `switch` of `rleDecompressAdvanced` (rle.js lines 171-194):
`'run'` and `'short_run'` expand by repetition, `'sequence'` spreads its
element list (spreading a missing list is a `TypeError`), `'single'` is
legacy support for the basic codec, and the `default` branch throws
`` `Invalid compressed item type: ${item.type}` ``. -/
def rleExpandAdv {σ : Type} : List (RleItemJS σ) → Except String (List (Option σ))
  | [] => .ok []
  | it :: its =>
    if it.type = "run" ∨ it.type = "short_run" then
      (rleExpandAdv its).map (fun r => List.replicate (it.count.getD 0) it.element ++ r)
    else if it.type = "sequence" then
      match it.elements with
      | none => .error "TypeError: item.elements is not iterable"
      | some els => (rleExpandAdv its).map (fun r => els.map some ++ r)
    else if it.type = "single" then
      (rleExpandAdv its).map (fun r => it.element :: r)
    else .error ("Invalid compressed item type: " ++ it.type)

/-- `String(originalLength)` as interpolated into the advanced
length-mismatch message (`undefined` prints as "undefined"). -/
def optNatStr : Option Nat → String
  | none => "undefined"
  | some n => toString n

/-- `rleDecompressAdvanced(compressedData)` (rle.js lines 163-207). -/
def rleDecompressAdvanced {σ : Type} (input : Option (RlePayload σ)) :
    Except String (JsResult σ) :=
  match input with
  | none => .error "Invalid compressed data format"
  | some p =>
    match p.compressed with
    | none => .error "Invalid compressed data format"
    | some items =>
      match rleExpandAdv items with
      | .error e => .error e
      | .ok decoded =>
        if p.originalLength = some decoded.length then
          .ok (if p.isArrayData.getD false then .arr decoded else .str decoded)
        else .error ("Decompression failed: length mismatch (expected " ++
          optNatStr p.originalLength ++ ", got " ++ toString decoded.length ++ ")")

/-! ## Huffman coding (`src/unnamed/part_000`) -/

/-- A `HuffmanNode {char, freq, left, right}`.  The four constructors
encode the four null-patterns of the `left`/`right` fields; `char` is
`null` (`none`) on every internal node the builder creates. -/
inductive HTree (σ : Type) where
  | leaf (c : Option σ) (f : Nat)
  | nodeL (c : Option σ) (f : Nat) (l : HTree σ)
  | nodeR (c : Option σ) (f : Nat) (r : HTree σ)
  | nodeLR (c : Option σ) (f : Nat) (l : HTree σ) (r : HTree σ)
deriving DecidableEq

/-- The `char` field. -/
def HTree.char {σ : Type} : HTree σ → Option σ
  | .leaf c _ => c
  | .nodeL c _ _ => c
  | .nodeR c _ _ => c
  | .nodeLR c _ _ _ => c

/-- The `freq` field. -/
def HTree.freq {σ : Type} : HTree σ → Nat
  | .leaf _ f => f
  | .nodeL _ f _ => f
  | .nodeR _ f _ => f
  | .nodeLR _ f _ _ => f

/-- The `left` field (`none` models `null`). -/
def HTree.left {σ : Type} : HTree σ → Option (HTree σ)
  | .leaf _ _ => none
  | .nodeL _ _ l => some l
  | .nodeR _ _ _ => none
  | .nodeLR _ _ l _ => some l

/-- The `right` field (`none` models `null`). -/
def HTree.right {σ : Type} : HTree σ → Option (HTree σ)
  | .leaf _ _ => none
  | .nodeL _ _ _ => none
  | .nodeR _ _ r => some r
  | .nodeLR _ _ _ r => some r

/-- `isLeaf()`: both children are `null`. -/
def HTree.isLeaf {σ : Type} : HTree σ → Bool
  | .leaf _ _ => true
  | _ => false

/-- `swap(i, j)` of the `MinHeap` class on the backing array (a no-op on
out-of-range indices, which the source never produces). -/
def swapL {α : Type} (l : List α) (i j : Nat) : List α :=
  match l[i]?, l[j]? with
  | some a, some b => (l.set i b).set j a
  | _, _ => l

/-- `heapifyUp(index)`: sift the element at `i` up while it is smaller
than its parent.  The index strictly decreases, so any `fuel ≥ i`
reaches the fixpoint. -/
def heapifyUp {σ : Type} : Nat → List (HTree σ) → Nat → List (HTree σ)
  | 0, h, _ => h
  | fuel + 1, h, i =>
    if i = 0 then h
    else
      let p := (i - 1) / 2
      match h[p]?, h[i]? with
      | some hp, some hx =>
        if hp.freq ≤ hx.freq then h else heapifyUp fuel (swapL h p i) p
      | _, _ => h

/-- `insert(node)`: push then sift up from the last index. -/
def insertHeap {σ : Type} (h : List (HTree σ)) (t : HTree σ) : List (HTree σ) :=
  heapifyUp (h.length + 1) (h ++ [t]) h.length

/-- `heapifyDown(index)`: sift down while a child is smaller.  The index
strictly increases and stays below the length, so `fuel = length`
suffices. -/
def heapifyDown {σ : Type} : Nat → List (HTree σ) → Nat → List (HTree σ)
  | 0, h, _ => h
  | fuel + 1, h, i =>
    match h[2 * i + 1]? with
    | none => h
    | some hl =>
      let sm := match h[2 * i + 2]? with
        | some hr => if hr.freq < hl.freq then (2 * i + 2, hr) else (2 * i + 1, hl)
        | none => (2 * i + 1, hl)
      match h[i]? with
      | some hi =>
        if hi.freq ≤ sm.2.freq then h else heapifyDown fuel (swapL h i sm.1) sm.1
      | none => h

/-- `extractMin()`: `null` on an empty heap; otherwise remove the root,
move the last element to the root and sift it down. -/
def extractMin {σ : Type} (h : List (HTree σ)) : Option (HTree σ) × List (HTree σ) :=
  match h with
  | [] => (none, [])
  | [x] => (some x, [])
  | x :: y :: rest =>
    (some x,
      heapifyDown (y :: rest).length
        ((y :: rest).getLastD y :: (y :: rest).dropLast) 0)

/-- `buildFrequencyTable(data)`: a JS object used as a symbol → count
map; an existing key is updated in place, a new key appended.  (For
integer-like keys `Object.entries` later iterates in numeric order; none
of the verified properties depend on entry order.) -/
def bumpFreq {σ : Type} [DecidableEq σ] : List (σ × Nat) → σ → List (σ × Nat)
  | [], c => [(c, 1)]
  | (k, n) :: rest, c =>
    if k = c then (k, n + 1) :: rest else (k, n) :: bumpFreq rest c

/-- `buildFrequencyTable(data)` (part_000 lines 88-104). -/
def buildFrequencyTable {σ : Type} [DecidableEq σ] (l : List σ) : List (σ × Nat) :=
  l.foldl bumpFreq []

/-- The `while (heap.size() > 1)` merge loop of `buildHuffmanTree`
(part_000 lines 121-126).  Each iteration shrinks the heap by one, so
`fuel = initial size` suffices. -/
def buildLoop {σ : Type} : Nat → List (HTree σ) → List (HTree σ)
  | 0, h => h
  | fuel + 1, h =>
    if h.length > 1 then
      match extractMin h with
      | (some l, h1) =>
        match extractMin h1 with
        | (some r, h2) =>
          buildLoop fuel (insertHeap h2 (.nodeLR none (l.freq + r.freq) l r))
        | (none, _) => h
      | (none, _) => h
    else h

/-- `buildHuffmanTree(freqTable)` (part_000 lines 106-129): insert one
leaf per entry; a single entry is wrapped in an internal node with only
a left child; otherwise merge until one node remains.  `none` models the
`null` the source returns for an empty table. -/
def buildHuffmanTree {σ : Type} (ft : List (σ × Nat)) : Option (HTree σ) :=
  let heap0 := ft.foldl (fun h e => insertHeap h (.leaf (some e.1) e.2)) []
  if heap0.length = 1 then
    match extractMin heap0 with
    | (some node, _) => some (.nodeL none node.freq node)
    | (none, _) => none
  else (extractMin (buildLoop heap0.length heap0)).1

/-- The `traverse(node, code)` recursion of `buildCodes` (part_000 lines
140-148), collecting `(char, code)` assignments in depth-first order;
`false` is the `'0'` appended on a left edge, `true` the `'1'` on a
right edge. -/
def collectCodes {σ : Type} : HTree σ → List Bool → List (Option σ × List Bool)
  | .leaf c _, code => [(c, code)]
  | .nodeL _ _ l, code => collectCodes l (code ++ [false])
  | .nodeR _ _ r, code => collectCodes r (code ++ [true])
  | .nodeLR _ _ l r, code =>
    collectCodes l (code ++ [false]) ++ collectCodes r (code ++ [true])

/-- `buildCodes(root)` (part_000 lines 131-152); a leaf root is
special-cased to the single code `'0'`. -/
def buildCodes {σ : Type} (root : HTree σ) : List (Option σ × List Bool) :=
  if root.isLeaf then [(root.char, [false])] else collectCodes root []

/-- The serialized tree of `serializeTree`/`deserializeTree`: a tagged
`{leaf, char, freq}` or `{internal, freq, left, right}` with possibly
`null` children (the constructor encodes the null-pattern). -/
inductive SerTree (σ : Type) where
  | leaf (c : Option σ) (f : Nat)
  | nodeNN (f : Nat)
  | nodeL (f : Nat) (l : SerTree σ)
  | nodeR (f : Nat) (r : SerTree σ)
  | nodeLR (f : Nat) (l : SerTree σ) (r : SerTree σ)
deriving DecidableEq

/-- `serializeTree(node)` (part_000 lines 245-262). -/
def serializeTree {σ : Type} : HTree σ → SerTree σ
  | .leaf c f => .leaf c f
  | .nodeL _ f l => .nodeL f (serializeTree l)
  | .nodeR _ f r => .nodeR f (serializeTree r)
  | .nodeLR _ f l r => .nodeLR f (serializeTree l) (serializeTree r)

/-- `deserializeTree(serialized)` (part_000 lines 264-274); an internal
tag always rebuilds a node with `char = null`. -/
def deserializeTree {σ : Type} : SerTree σ → HTree σ
  | .leaf c f => .leaf c f
  | .nodeNN f => .leaf none f
  | .nodeL f l => .nodeL none f (deserializeTree l)
  | .nodeR f r => .nodeR none f (deserializeTree r)
  | .nodeLR f l r => .nodeLR none f (deserializeTree l) (deserializeTree r)

/-- `v.toString(2)` as a big-endian bit list (`'0'` for zero, no
leading zeros otherwise); fuel-structural since the value halves. -/
def natBitsGo : Nat → Nat → List Bool
  | 0, _ => []
  | fuel + 1, v =>
    if v = 0 then [] else natBitsGo fuel (v / 2) ++ [decide (v % 2 = 1)]

/-- `byte.toString(2)` of a natural number. -/
def natBits (v : Nat) : List Bool :=
  if v = 0 then [false] else natBitsGo v v

/-- `byte.toString(2).padStart(8, '0')` (part_000 line 210). -/
def natToBitsJS (v : Nat) : List Bool :=
  List.replicate (8 - (natBits v).length) false ++ natBits v

/-- `parseInt(bits, 2)` on a bit string: big-endian accumulation. -/
def bitsToNat (l : List Bool) : Nat :=
  l.foldl (fun acc b => 2 * acc + (if b then 1 else 0)) 0

/-- The canonical `k`-bit big-endian expansion of `v` (proof auxiliary
relating `toString(2).padStart(8)` to `parseInt`). -/
def padK : Nat → Nat → List Bool
  | 0, _ => []
  | k + 1, v => padK k (v / 2) ++ [decide (v % 2 = 1)]

/-- `slice(i, i+8).padEnd(8, '0')` (part_000 line 184). -/
def padEnd8 (l : List Bool) : List Bool :=
  l ++ List.replicate (8 - l.length) false

/-- The bit-packing loop of `huffmanCompress` (part_000 lines 182-186):
consume 8 bits at a time, zero-padding the final chunk.  Each iteration
consumes at least one bit, so `fuel = length` suffices. -/
def packChunks : Nat → List Bool → List Nat
  | 0, _ => []
  | _ + 1, [] => []
  | fuel + 1, l => bitsToNat (padEnd8 (l.take 8)) :: packChunks fuel (l.drop 8)

/-- The byte-to-bits loop of `huffmanDecompress` (part_000 lines
208-211). -/
def unpackBits (bytes : List Nat) : List Bool :=
  bytes.flatMap natToBitsJS

/-- The compressed Huffman payload
`{encodedData, tree, originalLength, paddingBits, isArrayData}`;
`Option` models fields a hand-crafted payload may omit. -/
structure HPayload (σ : Type) where
  encodedData : Option (List Nat)
  tree : Option (SerTree σ)
  originalLength : Option Nat
  paddingBits : Option Nat
  isArrayData : Option Bool
deriving DecidableEq

/-- `huffmanCompress(data)` (part_000 lines 154-195).  A symbol whose
code is missing from the table would append the string `"undefined"` in
JS; the lookup provably never misses, and the embedding uses `[]` as the
unreachable default.  The `TypeError` branch models the crash of
`buildCodes(null)` on the (unreachable) `null` tree. -/
def huffmanCompress {σ : Type} [DecidableEq σ] (input : Option (JsValue σ)) :
    Except String (HPayload σ) :=
  match input with
  | none => .error "Input data is empty"
  | some v =>
    if v.list = [] then .error "Input data is empty"
    else
      match buildHuffmanTree (buildFrequencyTable v.list) with
      | none => .error "TypeError: Cannot read properties of null (reading 'isLeaf')"
      | some root =>
        let codes := buildCodes root
        let encodedBits := v.list.flatMap (fun c => (codes.lookup (some c)).getD [])
        .ok ⟨some (packChunks encodedBits.length encodedBits),
             some (serializeTree root), some v.list.length,
             some ((8 - encodedBits.length % 8) % 8), some v.isArr⟩

/-- The bit-by-bit decode loop of `huffmanDecompress` (part_000 lines
219-235): a leaf root emits its own `char` on every bit; otherwise each
bit steps to a child (`'0'` left, anything else right), emitting the
`char` and resetting to the root whenever a leaf is reached.  Stepping
into a `null` child is the modelled JS `TypeError`. -/
def decodeBits {σ : Type} (root : HTree σ) :
    HTree σ → List Bool → List (Option σ) → Except String (List (Option σ))
  | _, [], acc => .ok acc.reverse
  | current, b :: rest, acc =>
    if root.isLeaf then decodeBits root current rest (root.char :: acc)
    else
      match (if b then current.right else current.left) with
      | none => .error "TypeError: Cannot read properties of null (reading 'isLeaf')"
      | some nxt =>
        if nxt.isLeaf then decodeBits root root rest (nxt.char :: acc)
        else decodeBits root nxt rest acc

/-- `huffmanDecompress(compressedData)` (part_000 lines 197-243).  Note
that the source performs no length check against `originalLength`; the
final `parseInt`/`join` domain reconstruction is the identity on the
decoded symbol list under the `JsResult` convention. -/
def huffmanDecompress {σ : Type} (input : Option (HPayload σ)) :
    Except String (JsResult σ) :=
  match input with
  | none => .error "Invalid compressed data format"
  | some p =>
    match p.encodedData, p.tree with
    | some bytes, some st =>
      let root := deserializeTree st
      let bits := unpackBits bytes
      let pb := p.paddingBits.getD 0
      let bits := if pb > 0 then bits.take (bits.length - pb) else bits
      match decodeBits root root bits [] with
      | .error e => .error e
      | .ok decoded =>
        .ok (if p.isArrayData.getD false then .arr decoded else .str decoded)
    | _, _ => .error "Invalid compressed data format"

/-- Replace the `originalLength` field of a payload, leaving the rest
unchanged (used to state that decompression never reads it). -/
def setOriginalLength {σ : Type} (p : HPayload σ) (n : Option Nat) : HPayload σ :=
  ⟨p.encodedData, p.tree, n, p.paddingBits, p.isArrayData⟩

/-- The `char` fields of the leaves of a tree, left to right. -/
def leavesChars {σ : Type} : HTree σ → List (Option σ)
  | .leaf c _ => [c]
  | .nodeL _ _ l => leavesChars l
  | .nodeR _ _ r => leavesChars r
  | .nodeLR _ _ l r => leavesChars l ++ leavesChars r

/-- The node shapes `buildHuffmanTree` can produce: leaves carrying an
actual symbol, merge nodes (`char = null`, two children), and the
single-symbol wrapper (`char = null`, left child only). -/
inductive Proper {σ : Type} : HTree σ → Prop
  | leaf (c : σ) (f : Nat) : Proper (.leaf (some c) f)
  | nodeL (f : Nat) {l : HTree σ} : Proper l → Proper (.nodeL none f l)
  | nodeLR (f : Nat) {l r : HTree σ} : Proper l → Proper r →
      Proper (.nodeLR none f l r)

/-- The merge-step invariant: every internal node owns exactly two
children and its frequency is the sum of its children's frequencies. -/
def sumInv {σ : Type} : HTree σ → Bool
  | .leaf _ _ => true
  | .nodeL _ _ _ => false
  | .nodeR _ _ _ => false
  | .nodeLR _ f l r => (f == l.freq + r.freq) && sumInv l && sumInv r

/-- `Decodes t code s`: consuming exactly `code` from node `t`, the
bit-by-bit walk of `huffmanDecompress` passes through internal nodes
only and ends on a leaf with `char = s` (whereupon the decoder emits `s`
and resets to the root). -/
inductive Decodes {σ : Type} : HTree σ → List Bool → Option σ → Prop where
  | last (t : HTree σ) (b : Bool) (u : HTree σ) :
      (if b then t.right else t.left) = some u → u.isLeaf = true →
      Decodes t [b] u.char
  | step (t : HTree σ) (b : Bool) (u : HTree σ) (bs : List Bool) (s : Option σ) :
      (if b then t.right else t.left) = some u → u.isLeaf = false →
      Decodes u bs s → Decodes t (b :: bs) s

/-! ### RLE lemmas -/

theorem countRun_split {σ : Type} [DecidableEq σ] (x : σ) (l : List σ) :
    l = List.replicate (countRun x l) x ++ l.drop (countRun x l) := by
  induction l with
  | nil => rfl
  | cons y rest ih =>
    by_cases hyx : y = x
    · subst hyx
      simp only [countRun, if_pos rfl, List.replicate_succ, List.cons_append,
        List.drop_succ_cons]
      exact congrArg (y :: ·) ih
    · simp [countRun, hyx]

theorem map_some_split {σ : Type} [DecidableEq σ] (x : σ) (rest : List σ) :
    rest.map some = List.replicate (countRun x rest) (some x) ++
      (rest.drop (countRun x rest)).map some := by
  conv_lhs => rw [countRun_split x rest]
  simp

/-- `ite` on the recorded domain flag reassembles the round-trip target. -/
theorem ite_isArr_toResult {σ : Type} (v : JsValue σ) :
    (if v.isArr then JsResult.arr (v.list.map some) else JsResult.str (v.list.map some))
      = v.toResult := by
  cases v <;> rfl

theorem rleExpandBasic_cons_run {σ : Type} (el : Option σ) (cnt : Option Nat)
    (els : Option (List σ)) (its : List (RleItemJS σ)) :
    rleExpandBasic (RleItemJS.mk "run" el cnt els :: its) =
      (rleExpandBasic its).map (fun r => List.replicate (cnt.getD 0) el ++ r) := by
  simp [rleExpandBasic]

theorem rleExpandBasic_cons_single {σ : Type} (el : Option σ) (cnt : Option Nat)
    (els : Option (List σ)) (its : List (RleItemJS σ)) :
    rleExpandBasic (RleItemJS.mk "single" el cnt els :: its) =
      (rleExpandBasic its).map (fun r => el :: r) := by
  simp [rleExpandBasic]

theorem rleExpandAdv_cons_run {σ : Type} (el : Option σ) (cnt : Option Nat)
    (els : Option (List σ)) (its : List (RleItemJS σ)) :
    rleExpandAdv (RleItemJS.mk "run" el cnt els :: its) =
      (rleExpandAdv its).map (fun r => List.replicate (cnt.getD 0) el ++ r) := by
  simp [rleExpandAdv]

theorem rleExpandAdv_cons_short {σ : Type} (el : Option σ) (cnt : Option Nat)
    (els : Option (List σ)) (its : List (RleItemJS σ)) :
    rleExpandAdv (RleItemJS.mk "short_run" el cnt els :: its) =
      (rleExpandAdv its).map (fun r => List.replicate (cnt.getD 0) el ++ r) := by
  simp [rleExpandAdv]

theorem rleExpandAdv_cons_seq {σ : Type} (el : Option σ) (cnt : Option Nat)
    (els : List σ) (its : List (RleItemJS σ)) :
    rleExpandAdv (RleItemJS.mk "sequence" el cnt (some els) :: its) =
      (rleExpandAdv its).map (fun r => els.map some ++ r) := by
  simp [rleExpandAdv]

theorem rleExpandAdv_cons_single {σ : Type} (el : Option σ) (cnt : Option Nat)
    (els : Option (List σ)) (its : List (RleItemJS σ)) :
    rleExpandAdv (RleItemJS.mk "single" el cnt els :: its) =
      (rleExpandAdv its).map (fun r => el :: r) := by
  simp [rleExpandAdv]

theorem rleExpandBasic_core {σ : Type} [DecidableEq σ] :
    ∀ (fuel : Nat) (l : List σ), l.length ≤ fuel →
      rleExpandBasic (rleCompressCore fuel l) = .ok (l.map some) := by
  intro fuel
  induction fuel with
  | zero =>
    intro l hl
    have : l = [] := List.eq_nil_of_length_eq_zero (Nat.le_zero.mp hl)
    subst this; rfl
  | succ fuel ih =>
    intro l hl
    match l with
    | [] => rfl
    | x :: rest =>
      have hrest : rest.length ≤ fuel := by
        simp only [List.length_cons] at hl; omega
      by_cases hc : 1 + countRun x rest > 1
      · have hdrop : (rest.drop (countRun x rest)).length ≤ fuel :=
          le_trans (by simp [List.length_drop]) hrest
        rw [rleCompressCore]
        simp only [if_pos hc, Nat.add_sub_cancel_left]
        rw [rleExpandBasic_cons_run, ih _ hdrop]
        simp only [Except.map, Option.getD_some]
        rw [List.map_cons, map_some_split x rest, List.replicate_add]
        simp
      · have h0 : countRun x rest = 0 := by omega
        rw [rleCompressCore]
        simp only [if_neg hc]
        simp only [h0, Nat.add_sub_cancel_left, List.drop_zero]
        rw [rleExpandBasic_cons_single, ih _ hrest]
        simp [Except.map]

theorem rle_basic_roundtrip {σ : Type} [DecidableEq σ] (v : JsValue σ)
    (h : v.list ≠ []) :
    ∃ p, rleCompress (some v) = .ok p ∧ rleDecompress (some p) = .ok v.toResult := by
  refine ⟨⟨some (rleCompressCore v.list.length v.list), some v.list.length,
    some v.isArr, none⟩, ?_, ?_⟩
  · simp [rleCompress, h]
  · simp only [rleDecompress, rleExpandBasic_core v.list.length v.list (le_refl _)]
    simp [ite_isArr_toResult]

theorem collectSeq_split {σ : Type} [DecidableEq σ] :
    ∀ (fuel : Nat) (acc l : List σ),
      ∃ t, (collectSeq fuel acc l).1 = acc ++ t ∧ l = t ++ (collectSeq fuel acc l).2 := by
  intro fuel
  induction fuel with
  | zero => intro acc l; exact ⟨[], by simp [collectSeq]⟩
  | succ fuel ih =>
    intro acc l
    match l with
    | [] => exact ⟨[], by simp [collectSeq]⟩
    | x :: rest =>
      by_cases h255 : acc.length < 255
      · by_cases hrun : 1 + countRun x rest ≥ 2
        · exact ⟨[], by simp [collectSeq, h255, hrun]⟩
        · obtain ⟨t, ht1, ht2⟩ := ih (acc ++ [x]) rest
          refine ⟨x :: t, ?_, ?_⟩
          · simp [collectSeq, h255, hrun, ht1]
          · simp only [collectSeq, if_pos h255, if_neg hrun]
            simpa using congrArg (x :: ·) ht2
      · exact ⟨[], by simp [collectSeq, h255]⟩

theorem collectSeq_len {σ : Type} [DecidableEq σ] :
    ∀ (fuel : Nat) (acc l : List σ), 1 ≤ acc.length → acc.length ≤ 255 →
      1 ≤ (collectSeq fuel acc l).1.length ∧ (collectSeq fuel acc l).1.length ≤ 255 := by
  intro fuel
  induction fuel with
  | zero => intro acc l h1 h2; exact ⟨h1, h2⟩
  | succ fuel ih =>
    intro acc l h1 h2
    match l with
    | [] => exact ⟨h1, h2⟩
    | x :: rest =>
      rw [collectSeq]
      by_cases h255 : acc.length < 255
      · rw [if_pos h255]
        by_cases hrun : 1 + countRun x rest ≥ 2
        · rw [if_pos hrun]
          exact ⟨h1, h2⟩
        · rw [if_neg hrun]
          exact ih (acc ++ [x]) rest (by simp) (by simp; omega)
      · rw [if_neg h255]
        exact ⟨h1, h2⟩

theorem rleExpandAdv_core {σ : Type} [DecidableEq σ] :
    ∀ (fuel : Nat) (l : List σ), l.length ≤ fuel →
      rleExpandAdv (rleCompressAdvCore fuel l) = .ok (l.map some) := by
  intro fuel
  induction fuel with
  | zero =>
    intro l hl
    have : l = [] := List.eq_nil_of_length_eq_zero (Nat.le_zero.mp hl)
    subst this; rfl
  | succ fuel ih =>
    intro l hl
    match l with
    | [] => rfl
    | x :: rest =>
      have hrest : rest.length ≤ fuel := by
        simp only [List.length_cons] at hl; omega
      have hdrop : (rest.drop (countRun x rest)).length ≤ fuel :=
        le_trans (by simp [List.length_drop]) hrest
      by_cases h4 : 1 + countRun x rest ≥ 4
      · rw [rleCompressAdvCore]
        simp only [if_pos h4, Nat.add_sub_cancel_left]
        rw [rleExpandAdv_cons_run, ih _ hdrop]
        simp only [Except.map, Option.getD_some]
        rw [List.map_cons, map_some_split x rest, List.replicate_add]
        simp
      · by_cases h2 : 1 + countRun x rest ≥ 2
        · rw [rleCompressAdvCore]
          simp only [if_neg h4, if_pos h2, Nat.add_sub_cancel_left]
          rw [rleExpandAdv_cons_short, ih _ hdrop]
          simp only [Except.map, Option.getD_some]
          rw [List.map_cons, map_some_split x rest, List.replicate_add]
          simp
        · obtain ⟨t, ht1, ht2⟩ := collectSeq_split rest.length [x] rest
          have hle : (collectSeq rest.length [x] rest).2.length ≤ rest.length := by
            conv_rhs => rw [ht2]
            simp
          have hlen2 : (collectSeq rest.length [x] rest).2.length ≤ fuel :=
            le_trans hle hrest
          have hsplit : (x :: rest : List σ) =
              ([x] ++ t) ++ (collectSeq rest.length [x] rest).2 := by
            rw [List.append_assoc, List.singleton_append, ← ht2]
          rw [rleCompressAdvCore]
          simp only [if_neg h4, if_neg h2]
          rw [rleExpandAdv_cons_seq, ih _ hlen2]
          simp only [Except.map]
          rw [ht1, hsplit]
          simp

theorem rle_adv_roundtrip {σ : Type} [DecidableEq σ] (v : JsValue σ)
    (h : v.list ≠ []) :
    ∃ p, rleCompressAdvanced (some v) = .ok p ∧
      rleDecompressAdvanced (some p) = .ok v.toResult := by
  refine ⟨⟨some (rleCompressAdvCore v.list.length v.list), some v.list.length,
    some v.isArr, some "advanced_rle"⟩, ?_, ?_⟩
  · simp [rleCompressAdvanced, h]
  · simp only [rleDecompressAdvanced, rleExpandAdv_core v.list.length v.list (le_refl _)]
    simp [ite_isArr_toResult]

theorem rleExpandAdv_basicCore {σ : Type} [DecidableEq σ] :
    ∀ (fuel : Nat) (l : List σ), l.length ≤ fuel →
      rleExpandAdv (rleCompressCore fuel l) = .ok (l.map some) := by
  intro fuel
  induction fuel with
  | zero =>
    intro l hl
    have : l = [] := List.eq_nil_of_length_eq_zero (Nat.le_zero.mp hl)
    subst this; rfl
  | succ fuel ih =>
    intro l hl
    match l with
    | [] => rfl
    | x :: rest =>
      have hrest : rest.length ≤ fuel := by
        simp only [List.length_cons] at hl; omega
      by_cases hc : 1 + countRun x rest > 1
      · have hdrop : (rest.drop (countRun x rest)).length ≤ fuel :=
          le_trans (by simp [List.length_drop]) hrest
        rw [rleCompressCore]
        simp only [if_pos hc, Nat.add_sub_cancel_left]
        rw [rleExpandAdv_cons_run, ih _ hdrop]
        simp only [Except.map, Option.getD_some]
        rw [List.map_cons, map_some_split x rest, List.replicate_add]
        simp
      · have h0 : countRun x rest = 0 := by omega
        rw [rleCompressCore]
        simp only [if_neg hc]
        simp only [h0, Nat.add_sub_cancel_left, List.drop_zero]
        rw [rleExpandAdv_cons_single, ih _ hrest]
        simp [Except.map]

/-- The item tags the basic decoder recognizes. -/
def recognizedBasic {σ : Type} (it : RleItemJS σ) : Prop :=
  it.type = "run" ∨ it.type = "single"

/-- The item tags the advanced decoder recognizes. -/
def recognizedAdv {σ : Type} (it : RleItemJS σ) : Prop :=
  it.type = "run" ∨ it.type = "short_run" ∨ it.type = "sequence" ∨ it.type = "single"

theorem rleExpandBasic_unknown {σ : Type} :
    ∀ (items : List (RleItemJS σ)), (∃ it ∈ items, ¬ recognizedBasic it) →
      rleExpandBasic items = .error "Invalid compressed item type" := by
  intro items
  induction items with
  | nil => rintro ⟨it, hmem, _⟩; cases hmem
  | cons it its ih =>
    rintro ⟨bad, hmem, hbad⟩
    by_cases hrec : recognizedBasic it
    · have hbadits : ∃ b ∈ its, ¬ recognizedBasic b := by
        rcases List.mem_cons.mp hmem with h | h
        · exact absurd (h ▸ hrec) hbad
        · exact ⟨bad, h, hbad⟩
      rcases hrec with hr | hs
      · simp [rleExpandBasic, hr, ih hbadits, Except.map]
      · by_cases hr : it.type = "run"
        · simp [rleExpandBasic, hr, ih hbadits, Except.map]
        · simp [rleExpandBasic, hr, hs, ih hbadits, Except.map]
    · have h1 : ¬ it.type = "run" := fun h => hrec (Or.inl h)
      have h2 : ¬ it.type = "single" := fun h => hrec (Or.inr h)
      simp [rleExpandBasic, h1, h2]

theorem rleExpandAdv_unknown {σ : Type} :
    ∀ (items : List (RleItemJS σ)),
      (∀ it ∈ items, it.type = "sequence" → it.elements ≠ none) →
      (∃ it ∈ items, ¬ recognizedAdv it) →
      ∃ it ∈ items, ¬ recognizedAdv it ∧
        rleExpandAdv items = .error ("Invalid compressed item type: " ++ it.type) := by
  intro items
  induction items with
  | nil => rintro _ ⟨it, hmem, _⟩; cases hmem
  | cons it its ih =>
    intro hseq
    rintro ⟨bad, hmem, hbad⟩
    by_cases hrec : recognizedAdv it
    · have hbadits : ∃ b ∈ its, ¬ recognizedAdv b := by
        rcases List.mem_cons.mp hmem with h | h
        · exact absurd (h ▸ hrec) hbad
        · exact ⟨bad, h, hbad⟩
      have hseqits : ∀ b ∈ its, b.type = "sequence" → b.elements ≠ none :=
        fun b hb => hseq b (List.mem_cons_of_mem it hb)
      obtain ⟨b, hb, hbrec, hberr⟩ := ih hseqits hbadits
      refine ⟨b, List.mem_cons_of_mem it hb, hbrec, ?_⟩
      rcases hrec with hr | hsr | hq | hsg
      · simp [rleExpandAdv, hr, hberr, Except.map]
      · simp only [rleExpandAdv, if_pos (Or.inr hsr), hberr, Except.map]
      · by_cases hrs : it.type = "run" ∨ it.type = "short_run"
        · simp [rleExpandAdv, if_pos hrs, hberr, Except.map]
        · rcases hel : it.elements with _ | els
          · exact absurd (hseq it (List.mem_cons_self it its) hq hel) (fun h => h)
          · simp [rleExpandAdv, if_neg hrs, hq, hel, hberr, Except.map]
      · by_cases hrs : it.type = "run" ∨ it.type = "short_run"
        · simp [rleExpandAdv, if_pos hrs, hberr, Except.map]
        · by_cases hq : it.type = "sequence"
          · rcases hel : it.elements with _ | els
            · exact absurd (hseq it (List.mem_cons_self it its) hq hel) (fun h => h)
            · simp [rleExpandAdv, if_neg hrs, hq, hel, hberr, Except.map]
          · simp [rleExpandAdv, if_neg hrs, hq, hsg, hberr, Except.map]
    · have h1 : ¬ (it.type = "run" ∨ it.type = "short_run") := by
        intro h; rcases h with h | h
        · exact hrec (Or.inl h)
        · exact hrec (Or.inr (Or.inl h))
      have h2 : ¬ it.type = "sequence" := fun h => hrec (Or.inr (Or.inr (Or.inl h)))
      have h3 : ¬ it.type = "single" := fun h => hrec (Or.inr (Or.inr (Or.inr h)))
      exact ⟨it, List.mem_cons_self it its, hrec, by
        simp [rleExpandAdv, h1, h2, h3]⟩

/-- The shape every item emitted by the adaptive scan satisfies. -/
def advItemShape {σ : Type} (it : RleItemJS σ) : Prop :=
  (it.type = "run" ∧ ∃ c, it.count = some c ∧ 4 ≤ c) ∨
  (it.type = "short_run" ∧ ∃ c, it.count = some c ∧ 2 ≤ c ∧ c ≤ 3) ∨
  (it.type = "sequence" ∧ ∃ els, it.elements = some els ∧
    1 ≤ els.length ∧ els.length ≤ 255)

theorem rleCompressAdvCore_shape {σ : Type} [DecidableEq σ] :
    ∀ (fuel : Nat) (l : List σ) (it : RleItemJS σ),
      it ∈ rleCompressAdvCore fuel l → advItemShape it := by
  intro fuel
  induction fuel with
  | zero => intro l it h; cases h
  | succ fuel ih =>
    intro l it h
    match l with
    | [] => cases h
    | x :: rest =>
      by_cases h4 : 1 + countRun x rest ≥ 4
      · rw [rleCompressAdvCore, if_pos h4] at h
        rcases List.mem_cons.mp h with h | h
        · exact Or.inl ⟨by rw [h], 1 + countRun x rest, by rw [h], h4⟩
        · exact ih _ it h
      · by_cases h2 : 1 + countRun x rest ≥ 2
        · rw [rleCompressAdvCore, if_neg h4, if_pos h2] at h
          rcases List.mem_cons.mp h with h | h
          · exact Or.inr (Or.inl ⟨by rw [h], 1 + countRun x rest, by rw [h],
              h2, by omega⟩)
          · exact ih _ it h
        · rw [rleCompressAdvCore, if_neg h4, if_neg h2] at h
          rcases List.mem_cons.mp h with h | h
          · refine Or.inr (Or.inr ⟨by rw [h], (collectSeq rest.length [x] rest).1,
              by rw [h], ?_⟩)
            exact collectSeq_len rest.length [x] rest (by simp) (by simp)
          · exact ih _ it h

/-! ### Heap permutation machinery

None of the verified properties depend on which element `extractMin`
returns (heap tie-breaking is implementation-defined); they only need
that the heap operations permute the stored nodes. -/

theorem cons_set_perm {α : Type} :
    ∀ (t : List α) (j : Nat) (a b : α), t[j]? = some b →
      List.Perm (b :: t.set j a) (a :: t) := by
  intro t
  induction t with
  | nil => intro j a b h; simp at h
  | cons c s ih =>
    intro j a b h
    match j with
    | 0 =>
      simp only [List.getElem?_cons_zero, Option.some.injEq] at h
      subst h
      exact List.Perm.swap a c s
    | k + 1 =>
      simp only [List.getElem?_cons_succ] at h
      simp only [List.set_cons_succ]
      have s1 : List.Perm (b :: c :: s.set k a) (c :: b :: s.set k a) :=
        List.Perm.swap c b _
      have s2 : List.Perm (c :: b :: s.set k a) (c :: a :: s) := (ih k a b h).cons c
      exact (s1.trans s2).trans (List.Perm.swap a c s)

theorem swap_sets_perm {α : Type} :
    ∀ (l : List α) (i j : Nat) (a b : α), l[i]? = some a → l[j]? = some b →
      List.Perm ((l.set i b).set j a) l := by
  intro l
  induction l with
  | nil => intro i j a b ha _; simp at ha
  | cons c t ih =>
    intro i j a b ha hb
    match i, j with
    | 0, 0 =>
      simp only [List.getElem?_cons_zero, Option.some.injEq] at ha hb
      subst ha; subst hb
      simp
    | 0, k + 1 =>
      simp only [List.getElem?_cons_zero, Option.some.injEq] at ha
      simp only [List.getElem?_cons_succ] at hb
      subst ha
      simp only [List.set_cons_zero, List.set_cons_succ]
      exact cons_set_perm t k c b hb
    | m + 1, 0 =>
      simp only [List.getElem?_cons_zero, Option.some.injEq] at hb
      simp only [List.getElem?_cons_succ] at ha
      subst hb
      simp only [List.set_cons_succ, List.set_cons_zero]
      exact cons_set_perm t m c a ha
    | m + 1, k + 1 =>
      simp only [List.getElem?_cons_succ] at ha hb
      simp only [List.set_cons_succ]
      exact (ih m k a b ha hb).cons c

theorem swapL_perm {α : Type} (l : List α) (i j : Nat) : List.Perm (swapL l i j) l := by
  unfold swapL
  rcases ha : l[i]? with _ | a
  · exact List.Perm.refl l
  · rcases hb : l[j]? with _ | b
    · exact List.Perm.refl l
    · exact swap_sets_perm l i j a b ha hb

theorem heapifyUp_perm {σ : Type} :
    ∀ (fuel : Nat) (h : List (HTree σ)) (i : Nat),
      List.Perm (heapifyUp fuel h i) h := by
  intro fuel
  induction fuel with
  | zero => intro h i; exact List.Perm.refl h
  | succ fuel ih =>
    intro h i
    rw [heapifyUp]
    by_cases h0 : i = 0
    · rw [if_pos h0]
    · rw [if_neg h0]
      rcases hp : h[(i - 1) / 2]? with _ | hpv
      · rcases hx : h[i]? with _ | hxv <;> simp only [hp, hx] <;>
          exact List.Perm.refl h
      · rcases hx : h[i]? with _ | hxv
        · simp only [hp, hx]
          exact List.Perm.refl h
        · simp only [hp, hx]
          by_cases hle : hpv.freq ≤ hxv.freq
          · rw [if_pos hle]
          · rw [if_neg hle]
            exact (ih _ _).trans (swapL_perm h _ i)

theorem heapifyDown_perm {σ : Type} :
    ∀ (fuel : Nat) (h : List (HTree σ)) (i : Nat),
      List.Perm (heapifyDown fuel h i) h := by
  intro fuel
  induction fuel with
  | zero => intro h i; exact List.Perm.refl h
  | succ fuel ih =>
    intro h i
    rw [heapifyDown]
    rcases hl : h[2 * i + 1]? with _ | hlv
    · simp only [hl]
      exact List.Perm.refl h
    · rcases hr : h[2 * i + 2]? with _ | hrv
      · rcases hi : h[i]? with _ | hiv
        · simp only [hl, hr, hi]
          exact List.Perm.refl h
        · simp only [hl, hr, hi]
          by_cases hle : hiv.freq ≤ hlv.freq
          · rw [if_pos hle]
          · rw [if_neg hle]
            exact (ih _ _).trans (swapL_perm h _ _)
      · rcases hi : h[i]? with _ | hiv
        · simp only [hl, hr, hi]
          exact List.Perm.refl h
        · simp only [hl, hr, hi]
          by_cases hc : hrv.freq < hlv.freq
          · rw [if_pos hc]
            by_cases hle : hiv.freq ≤ hrv.freq
            · rw [if_pos hle]
            · rw [if_neg hle]
              exact (ih _ _).trans (swapL_perm h _ _)
          · rw [if_neg hc]
            by_cases hle : hiv.freq ≤ hlv.freq
            · rw [if_pos hle]
            · rw [if_neg hle]
              exact (ih _ _).trans (swapL_perm h _ _)

theorem insertHeap_perm {σ : Type} (h : List (HTree σ)) (t : HTree σ) :
    List.Perm (insertHeap h t) (t :: h) := by
  unfold insertHeap
  exact (heapifyUp_perm _ _ _).trans (List.perm_append_singleton t h)

theorem dropLast_getLastD {α : Type} :
    ∀ (l : List α) (d : α), l ≠ [] → l.dropLast ++ [l.getLastD d] = l := by
  intro l
  induction l with
  | nil => intro d h; exact absurd rfl h
  | cons a t ih =>
    intro d _
    cases t with
    | nil => rfl
    | cons b s =>
      have h2 := ih a (List.cons_ne_nil b s)
      calc (a :: b :: s).dropLast ++ [(a :: b :: s).getLastD d]
          = a :: ((b :: s).dropLast ++ [(b :: s).getLastD a]) := rfl
        _ = a :: b :: s := by rw [h2]

theorem extractMin_some {σ : Type} (h : List (HTree σ)) (hne : h ≠ []) :
    ∃ x h', extractMin h = (some x, h') := by
  match h with
  | [] => exact absurd rfl hne
  | [x] => exact ⟨x, [], rfl⟩
  | x :: y :: rest => exact ⟨x, _, rfl⟩

theorem extractMin_perm {σ : Type} (h : List (HTree σ)) (x : HTree σ)
    (h' : List (HTree σ)) (he : extractMin h = (some x, h')) :
    List.Perm h (x :: h') := by
  match h with
  | [] => simp [extractMin] at he
  | [z] =>
    simp only [extractMin, Prod.mk.injEq, Option.some.injEq] at he
    rw [he.1, ← he.2]
  | z :: y :: rest =>
    simp only [extractMin, Prod.mk.injEq, Option.some.injEq] at he
    obtain ⟨hz, hh⟩ := he
    subst hz
    have h1 : List.Perm h' ((y :: rest).getLastD y :: (y :: rest).dropLast) := by
      rw [← hh]; exact heapifyDown_perm _ _ _
    have h2 : ((y :: rest).dropLast ++ [(y :: rest).getLastD y]) = y :: rest :=
      dropLast_getLastD (y :: rest) y (List.cons_ne_nil y rest)
    have h3 : List.Perm (y :: rest)
        ((y :: rest).getLastD y :: (y :: rest).dropLast) := by
      conv_lhs => rw [← h2]
      exact List.perm_append_singleton _ _
    exact (h3.trans h1.symm).cons z

theorem extractMin_length {σ : Type} (h : List (HTree σ)) (x : HTree σ)
    (h' : List (HTree σ)) (he : extractMin h = (some x, h')) :
    h'.length + 1 = h.length := by
  have := (extractMin_perm h x h' he).length_eq
  simpa using this.symm

/-! ### Tree construction -/

theorem buildLoop_singleton {σ : Type} (fuel : Nat) (t : HTree σ) :
    buildLoop fuel [t] = [t] := by
  cases fuel with
  | zero => rfl
  | succ fuel => rw [buildLoop]; simp

theorem buildLoop_master {σ : Type} (P : HTree σ → Prop)
    (hP : ∀ (l r : HTree σ), P l → P r → P (.nodeLR none (l.freq + r.freq) l r)) :
    ∀ (fuel : Nat) (h : List (HTree σ)), h.length ≤ fuel → 2 ≤ h.length →
      (∀ t ∈ h, P t) →
      ∃ t, buildLoop fuel h = [t] ∧ (∃ f l r, t = HTree.nodeLR none f l r) ∧
        P t ∧ List.Perm (leavesChars t) (h.flatMap leavesChars) := by
  intro fuel
  induction fuel with
  | zero => intro h hf h2 _; omega
  | succ fuel ih =>
    intro h hf h2 hall
    have hne : h ≠ [] := by
      intro he; rw [he] at h2; simp at h2
    obtain ⟨a, h1, he1⟩ := extractMin_some h hne
    have p1 : List.Perm h (a :: h1) := extractMin_perm h a h1 he1
    have hlen1 : h1.length + 1 = h.length := extractMin_length h a h1 he1
    have hne1 : h1 ≠ [] := by
      intro he; rw [he] at hlen1; simp at hlen1; omega
    obtain ⟨b, hh2, he2⟩ := extractMin_some h1 hne1
    have p2 : List.Perm h1 (b :: hh2) := extractMin_perm h1 b hh2 he2
    have hlen2 : hh2.length + 1 = h1.length := extractMin_length h1 b hh2 he2
    have hPa : P a := hall a (p1.mem_iff.mpr (List.mem_cons_self a h1))
    have hPb : P b := by
      refine hall b (p1.mem_iff.mpr ?_)
      exact List.mem_cons_of_mem a (p2.mem_iff.mpr (List.mem_cons_self b hh2))
    have hguard : h.length > 1 := h2
    have hstep : buildLoop (fuel + 1) h =
        buildLoop fuel (insertHeap hh2 (.nodeLR none (a.freq + b.freq) a b)) := by
      rw [buildLoop, if_pos hguard]
      simp only [he1, he2]
    set node : HTree σ := HTree.nodeLR none (a.freq + b.freq) a b with hnode
    have hPnode : P node := hP a b hPa hPb
    have p3 : List.Perm (insertHeap hh2 node) (node :: hh2) := insertHeap_perm hh2 node
    have hflat : List.Perm (h.flatMap leavesChars)
        (leavesChars node ++ hh2.flatMap leavesChars) := by
      have q1 : List.Perm (h.flatMap leavesChars) ((a :: h1).flatMap leavesChars) :=
        p1.flatMap_right leavesChars
      have q2 : List.Perm (h1.flatMap leavesChars) ((b :: hh2).flatMap leavesChars) :=
        p2.flatMap_right leavesChars
      have q3 : List.Perm ((a :: h1).flatMap leavesChars)
          (leavesChars a ++ (leavesChars b ++ hh2.flatMap leavesChars)) := by
        simp only [List.flatMap_cons] at q2 ⊢
        exact q2.append_left (leavesChars a)
      have : leavesChars node = leavesChars a ++ leavesChars b := rfl
      rw [this, List.append_assoc]
      exact (q1.trans q3)
    by_cases hsz : h.length = 2
    · have hh2nil : hh2 = [] := by
        have : hh2.length = 0 := by omega
        exact List.eq_nil_of_length_eq_zero this
      subst hh2nil
      have hins : insertHeap [] node = [node] := rfl
      rw [hstep, hins, buildLoop_singleton]
      refine ⟨node, rfl, ⟨_, a, b, rfl⟩, hPnode, ?_⟩
      have hp := hflat.symm
      simp only [List.flatMap_nil, List.append_nil] at hp
      exact hp
    · have hlen3 : (insertHeap hh2 node).length = h.length - 1 := by
        have := p3.length_eq
        simp only [List.length_cons] at this
        omega
      have hge : 2 ≤ (insertHeap hh2 node).length := by omega
      have hle : (insertHeap hh2 node).length ≤ fuel := by omega
      have hallins : ∀ t ∈ insertHeap hh2 node, P t := by
        intro t ht
        rcases List.mem_cons.mp (p3.mem_iff.mp ht) with h | h
        · rw [h]; exact hPnode
        · refine hall t (p1.mem_iff.mpr ?_)
          exact List.mem_cons_of_mem a
            (p2.mem_iff.mpr (List.mem_cons_of_mem b h))
      obtain ⟨t, ht1, ht2, ht3, ht4⟩ := ih (insertHeap hh2 node) hle hge hallins
      refine ⟨t, by rw [hstep, ht1], ht2, ht3, ?_⟩
      have q4 : List.Perm ((insertHeap hh2 node).flatMap leavesChars)
          ((node :: hh2).flatMap leavesChars) := p3.flatMap_right leavesChars
      refine (ht4.trans q4).trans ?_
      simp only [List.flatMap_cons]
      exact hflat.symm

theorem foldl_insert_perm {σ : Type} :
    ∀ (ft : List (σ × Nat)) (acc : List (HTree σ)),
      List.Perm (ft.foldl (fun h e => insertHeap h (.leaf (some e.1) e.2)) acc)
        (acc ++ ft.map (fun e => .leaf (some e.1) e.2)) := by
  intro ft
  induction ft with
  | nil => intro acc; simp
  | cons e ft ih =>
    intro acc
    simp only [List.foldl_cons, List.map_cons]
    have step : List.Perm (insertHeap acc (.leaf (some e.1) e.2))
        (HTree.leaf (some e.1) e.2 :: acc) := insertHeap_perm _ _
    have base := ih (insertHeap acc (.leaf (some e.1) e.2))
    refine base.trans ?_
    have q1 : List.Perm
        (insertHeap acc (.leaf (some e.1) e.2) ++
          ft.map (fun e => HTree.leaf (some e.1) e.2))
        ((HTree.leaf (some e.1) e.2 :: acc) ++
          ft.map (fun e => HTree.leaf (some e.1) e.2)) :=
      step.append_right _
    refine q1.trans ?_
    simp only [List.cons_append]
    exact List.perm_middle.symm

theorem heap0_length {σ : Type} [DecidableEq σ] (ft : List (σ × Nat)) :
    (ft.foldl (fun h e => insertHeap h (.leaf (some e.1) e.2)) []).length
      = ft.length := by
  have := (foldl_insert_perm ft []).length_eq
  simpa using this

/-- The fully general specification of `buildHuffmanTree` on tables with
at least two entries, parametrized by any property preserved by the
merge step. -/
theorem buildHuffmanTree_spec {σ : Type} [DecidableEq σ] (P : HTree σ → Prop)
    (hleaf : ∀ (c : σ) (f : Nat), P (.leaf (some c) f))
    (hP : ∀ (l r : HTree σ), P l → P r → P (.nodeLR none (l.freq + r.freq) l r))
    (ft : List (σ × Nat)) (h2 : 2 ≤ ft.length) :
    ∃ t, buildHuffmanTree ft = some t ∧ (∃ f l r, t = HTree.nodeLR none f l r) ∧
      P t ∧ List.Perm (leavesChars t) (ft.map (fun e => some e.1)) := by
  unfold buildHuffmanTree
  set heap0 := ft.foldl (fun h e => insertHeap h (.leaf (some e.1) e.2)) []
    with hheap0
  have hlen : heap0.length = ft.length := heap0_length ft
  have hne1 : ¬ heap0.length = 1 := by omega
  rw [if_neg hne1]
  have hperm : List.Perm heap0 (ft.map (fun e => .leaf (some e.1) e.2)) := by
    have := foldl_insert_perm ft []
    simpa using this
  have hall : ∀ t ∈ heap0, P t := by
    intro t ht
    have := hperm.mem_iff.mp ht
    obtain ⟨e, _, hte⟩ := List.mem_map.mp this
    rw [← hte]; exact hleaf e.1 e.2
  obtain ⟨t, ht1, ht2, ht3, ht4⟩ :=
    buildLoop_master P hP heap0.length heap0 (le_refl _) (by omega) hall
  refine ⟨t, ?_, ht2, ht3, ?_⟩
  · rw [ht1]; rfl
  · refine ht4.trans ?_
    have q1 : List.Perm (heap0.flatMap leavesChars)
        ((ft.map (fun e => HTree.leaf (some e.1) e.2)).flatMap leavesChars) :=
      hperm.flatMap_right leavesChars
    refine q1.trans ?_
    have hsing : ∀ (l : List (σ × Nat)),
        l.flatMap (fun e => ([some e.1] : List (Option σ)))
          = l.map (fun e => some e.1) := by
      intro l
      induction l with
      | nil => rfl
      | cons x xs ihl => simp [ihl]
    rw [List.flatMap_map]
    simp only [leavesChars]
    rw [hsing]

theorem buildHuffmanTree_single {σ : Type} [DecidableEq σ] (e : σ × Nat) :
    buildHuffmanTree [e] = some (.nodeL none e.2 (.leaf (some e.1) e.2)) := rfl

/-! ### Code tables and the decode walk -/

theorem deserialize_serialize {σ : Type} :
    ∀ (t : HTree σ), Proper t → deserializeTree (serializeTree t) = t := by
  intro t hp
  induction hp with
  | leaf c f => rfl
  | nodeL f _ ihl => simp [serializeTree, deserializeTree, ihl]
  | nodeLR f _ _ ihl ihr => simp [serializeTree, deserializeTree, ihl, ihr]

theorem collect_keys {σ : Type} :
    ∀ (t : HTree σ) (pre : List Bool),
      (collectCodes t pre).map Prod.fst = leavesChars t := by
  intro t
  induction t with
  | leaf c f => intro pre; rfl
  | nodeL c f l ihl => intro pre; exact ihl _
  | nodeR c f r ihr => intro pre; exact ihr _
  | nodeLR c f l r ihl ihr =>
    intro pre
    simp only [collectCodes, leavesChars, List.map_append, ihl, ihr]

theorem collect_pre {σ : Type} :
    ∀ (t : HTree σ) (pre : List Bool) (p : Option σ × List Bool),
      p ∈ collectCodes t pre → pre <+: p.2 := by
  intro t
  induction t with
  | leaf c f =>
    intro pre p hp
    simp only [collectCodes, List.mem_singleton] at hp
    rw [hp]
  | nodeL c f l ihl =>
    intro pre p hp
    exact (List.prefix_append pre [false]).trans (ihl _ p hp)
  | nodeR c f r ihr =>
    intro pre p hp
    exact (List.prefix_append pre [true]).trans (ihr _ p hp)
  | nodeLR c f l r ihl ihr =>
    intro pre p hp
    rcases List.mem_append.mp hp with h | h
    · exact (List.prefix_append pre [false]).trans (ihl _ p h)
    · exact (List.prefix_append pre [true]).trans (ihr _ p h)

theorem not_decodes_leaf {σ : Type} (c : Option σ) (f : Nat) (bs : List Bool)
    (s : Option σ) : ¬ Decodes (.leaf c f) bs s := by
  intro h
  cases h with
  | last _ b u hu _ => cases b <;> simp [HTree.left, HTree.right] at hu
  | step _ b u bs' s' hu _ _ => cases b <;> simp [HTree.left, HTree.right] at hu

theorem collect_decodes {σ : Type} :
    ∀ (t : HTree σ) (pre : List Bool) (s : Option σ) (code : List Bool),
      (s, code) ∈ collectCodes t pre →
      (t.isLeaf = true ∧ code = pre ∧ s = t.char) ∨
      (∃ suf, code = pre ++ suf ∧ Decodes t suf s) := by
  intro t
  induction t with
  | leaf c f =>
    intro pre s code hp
    simp only [collectCodes, List.mem_singleton, Prod.mk.injEq] at hp
    exact Or.inl ⟨rfl, hp.2, hp.1⟩
  | nodeL c f l ihl =>
    intro pre s code hp
    rcases ihl (pre ++ [false]) s code hp with ⟨hlf, hcode, hs⟩ | ⟨suf, hcode, hdec⟩
    · refine Or.inr ⟨[false], hcode, ?_⟩
      rw [hs]
      exact Decodes.last _ false l rfl hlf
    · by_cases hlb : l.isLeaf = true
      · rcases l with ⟨c', f'⟩ | _ | _ | _ <;> simp [HTree.isLeaf] at hlb
        exact absurd hdec (not_decodes_leaf _ _ _ _)
      · refine Or.inr ⟨false :: suf, ?_, ?_⟩
        · rw [hcode, List.append_assoc]; rfl
        · exact Decodes.step _ false l suf s rfl
            (Bool.not_eq_true _ ▸ hlb) hdec
  | nodeR c f r ihr =>
    intro pre s code hp
    rcases ihr (pre ++ [true]) s code hp with ⟨hlf, hcode, hs⟩ | ⟨suf, hcode, hdec⟩
    · refine Or.inr ⟨[true], hcode, ?_⟩
      rw [hs]
      exact Decodes.last _ true r rfl hlf
    · by_cases hlb : r.isLeaf = true
      · rcases r with ⟨c', f'⟩ | _ | _ | _ <;> simp [HTree.isLeaf] at hlb
        exact absurd hdec (not_decodes_leaf _ _ _ _)
      · refine Or.inr ⟨true :: suf, ?_, ?_⟩
        · rw [hcode, List.append_assoc]; rfl
        · exact Decodes.step _ true r suf s rfl
            (Bool.not_eq_true _ ▸ hlb) hdec
  | nodeLR c f l r ihl ihr =>
    intro pre s code hp
    rcases List.mem_append.mp hp with h | h
    · rcases ihl (pre ++ [false]) s code h with ⟨hlf, hcode, hs⟩ | ⟨suf, hcode, hdec⟩
      · refine Or.inr ⟨[false], hcode, ?_⟩
        rw [hs]
        exact Decodes.last _ false l rfl hlf
      · by_cases hlb : l.isLeaf = true
        · rcases l with ⟨c', f'⟩ | _ | _ | _ <;> simp [HTree.isLeaf] at hlb
          exact absurd hdec (not_decodes_leaf _ _ _ _)
        · refine Or.inr ⟨false :: suf, ?_, ?_⟩
          · rw [hcode, List.append_assoc]; rfl
          · exact Decodes.step _ false l suf s rfl
              (Bool.not_eq_true _ ▸ hlb) hdec
    · rcases ihr (pre ++ [true]) s code h with ⟨hlf, hcode, hs⟩ | ⟨suf, hcode, hdec⟩
      · refine Or.inr ⟨[true], hcode, ?_⟩
        rw [hs]
        exact Decodes.last _ true r rfl hlf
      · by_cases hlb : r.isLeaf = true
        · rcases r with ⟨c', f'⟩ | _ | _ | _ <;> simp [HTree.isLeaf] at hlb
          exact absurd hdec (not_decodes_leaf _ _ _ _)
        · refine Or.inr ⟨true :: suf, ?_, ?_⟩
          · rw [hcode, List.append_assoc]; rfl
          · exact Decodes.step _ true r suf s rfl
              (Bool.not_eq_true _ ▸ hlb) hdec

theorem decodeBits_step {σ : Type} (root : HTree σ) (hroot : root.isLeaf = false) :
    ∀ (current : HTree σ) (code : List Bool) (s : Option σ),
      Decodes current code s → ∀ (rest : List Bool) (acc : List (Option σ)),
        decodeBits root current (code ++ rest) acc
          = decodeBits root root rest (s :: acc) := by
  intro current code s hdec
  induction hdec with
  | last t b u hu hl =>
    intro rest acc
    rw [List.cons_append, List.nil_append, decodeBits]
    rw [if_neg (by simp [hroot])]
    rw [hu]
    simp only [hl, if_true]
  | step t b u bs s' hu hl _ ih =>
    intro rest acc
    rw [List.cons_append, decodeBits]
    rw [if_neg (by simp [hroot])]
    rw [hu]
    simp only [hl, Bool.false_eq_true, if_false]
    exact ih rest acc

theorem decodeBits_flatMap {σ : Type} (root : HTree σ) (hroot : root.isLeaf = false)
    (codeOf : σ → List Bool) :
    ∀ (l : List σ), (∀ s ∈ l, Decodes root (codeOf s) (some s)) →
      ∀ (acc : List (Option σ)),
        decodeBits root root (l.flatMap codeOf) acc
          = .ok (acc.reverse ++ l.map some) := by
  intro l
  induction l with
  | nil =>
    intro _ acc
    simp [decodeBits]
  | cons x l ih =>
    intro hall acc
    rw [List.flatMap_cons]
    rw [decodeBits_step root hroot root (codeOf x) (some x)
      (hall x (List.mem_cons_self x l))]
    rw [ih (fun s hs => hall s (List.mem_cons_of_mem x hs))]
    simp

/-! ### Bit packing and unpacking -/

theorem bitsToNat_append_bit (l : List Bool) (b : Bool) :
    bitsToNat (l ++ [b]) = 2 * bitsToNat l + (if b then 1 else 0) := by
  unfold bitsToNat
  rw [List.foldl_append]
  rfl

theorem padK_bitsToNat : ∀ (l : List Bool), padK l.length (bitsToNat l) = l := by
  intro l
  induction l using List.reverseRecOn with
  | nil => rfl
  | append_singleton l b ih =>
    rw [bitsToNat_append_bit]
    have hlen : (l ++ [b]).length = l.length + 1 := by simp
    rw [hlen, padK]
    have h1 : (2 * bitsToNat l + (if b then 1 else 0)) / 2 = bitsToNat l := by
      cases b <;> (simp; try omega)
    have h2 : decide ((2 * bitsToNat l + (if b then 1 else 0)) % 2 = 1) = b := by
      cases b <;> (simp; try omega)
    rw [h1, h2, ih]

theorem bitsToNat_lt : ∀ (l : List Bool), bitsToNat l < 2 ^ l.length := by
  intro l
  induction l using List.reverseRecOn with
  | nil => simp [bitsToNat]
  | append_singleton l b ih =>
    rw [bitsToNat_append_bit]
    have hlen : (l ++ [b]).length = l.length + 1 := by simp
    rw [hlen, pow_succ]
    cases b <;> simp <;> omega

theorem natToBitsJS_eq_padK : ∀ v : Nat, v < 256 → natToBitsJS v = padK 8 v := by
  decide

theorem roundtrip8 (chunk : List Bool) (h : chunk.length = 8) :
    natToBitsJS (bitsToNat chunk) = chunk := by
  have hlt : bitsToNat chunk < 256 := by
    have := bitsToNat_lt chunk
    rw [h] at this
    exact this
  rw [natToBitsJS_eq_padK _ hlt, ← h, padK_bitsToNat]

theorem packChunks_nil : ∀ (fuel : Nat), packChunks fuel [] = [] := by
  intro fuel; cases fuel <;> rfl

theorem padEnd8_length (l : List Bool) (h : l.length ≤ 8) :
    (padEnd8 l).length = 8 := by
  simp only [padEnd8, List.length_append, List.length_replicate]
  omega

theorem unpack_pack : ∀ (fuel : Nat) (l : List Bool), l.length ≤ fuel →
    unpackBits (packChunks fuel l)
      = l ++ List.replicate ((8 - l.length % 8) % 8) false := by
  intro fuel
  induction fuel with
  | zero =>
    intro l hl
    have : l = [] := List.eq_nil_of_length_eq_zero (Nat.le_zero.mp hl)
    subst this
    rfl
  | succ fuel ih =>
    intro l hl
    match l with
    | [] => rfl
    | x :: rest =>
      have heq : packChunks (fuel + 1) (x :: rest)
          = bitsToNat (padEnd8 ((x :: rest).take 8))
            :: packChunks fuel ((x :: rest).drop 8) := rfl
      rw [heq]
      rw [unpackBits, List.flatMap_cons]
      by_cases h8 : (x :: rest).length ≥ 8
      · have htake : ((x :: rest).take 8).length = 8 := by
          simp only [List.length_take]
          omega
        have hpad : padEnd8 ((x :: rest).take 8) = (x :: rest).take 8 := by
          simp only [padEnd8, htake]
          simp
        rw [hpad, roundtrip8 _ htake]
        have hdroplen : ((x :: rest).drop 8).length ≤ fuel := by
          simp only [List.length_drop]
          simp only [List.length_cons] at hl ⊢
          omega
        have ihd := ih _ hdroplen
        rw [unpackBits] at ihd
        rw [ihd]
        rw [← List.append_assoc, List.take_append_drop]
        have : ((x :: rest).drop 8).length % 8 = (x :: rest).length % 8 := by
          simp only [List.length_drop]
          omega
        rw [this]
      · have hlen7 : (x :: rest).length ≤ 8 := by omega
        have htake : (x :: rest).take 8 = x :: rest := List.take_of_length_le hlen7
        have hdrop : (x :: rest).drop 8 = [] := List.drop_of_length_le hlen7
        rw [htake, hdrop, packChunks_nil]
        have hp8 : (padEnd8 (x :: rest)).length = 8 := padEnd8_length _ hlen7
        rw [roundtrip8 _ hp8]
        simp only [List.flatMap_nil, List.append_nil, padEnd8]
        have h1 : (x :: rest).length % 8 = (x :: rest).length := by
          apply Nat.mod_eq_of_lt
          omega
        have h2 : (8 - (x :: rest).length % 8) % 8 = 8 - (x :: rest).length := by
          rw [h1]
          apply Nat.mod_eq_of_lt
          simp only [List.length_cons]
          omega
        rw [h2]

/-! ### Frequency tables, lookups, and the Huffman round trip -/

theorem lookup_mem {α β : Type} [BEq α] [LawfulBEq α] {l : List (α × β)} {k : α}
    {v : β} (h : List.lookup k l = some v) : (k, v) ∈ l := by
  obtain ⟨l₁, l₂, rfl, _⟩ := List.lookup_eq_some_iff.mp h
  simp

theorem lookup_of_mem_keys {α β : Type} [BEq α] [LawfulBEq α] {l : List (α × β)}
    {k : α} (h : k ∈ l.map Prod.fst) : ∃ v, List.lookup k l = some v := by
  obtain ⟨p, hp, hk⟩ := List.mem_map.mp h
  have : (List.lookup k l).isSome := by
    rw [List.lookup_isSome_iff]
    exact ⟨p, hp, by simp [hk]⟩
  exact Option.isSome_iff_exists.mp this

theorem keys_bumpFreq {σ : Type} [DecidableEq σ] :
    ∀ (ft : List (σ × Nat)) (c : σ),
      (bumpFreq ft c).map Prod.fst =
        if c ∈ ft.map Prod.fst then ft.map Prod.fst else ft.map Prod.fst ++ [c] := by
  intro ft
  induction ft with
  | nil => intro c; simp [bumpFreq]
  | cons e ft ih =>
    intro c
    obtain ⟨k, n⟩ := e
    by_cases hk : k = c
    · subst hk
      simp [bumpFreq]
    · have hne : ¬ c = k := fun hc => hk hc.symm
      simp only [bumpFreq, if_neg hk, List.map_cons, List.mem_cons, hne, false_or]
      rw [ih c]
      by_cases hc : c ∈ ft.map Prod.fst
      · simp [hc]
      · simp [hc]

theorem keys_foldl_bumpFreq_mem {σ : Type} [DecidableEq σ] :
    ∀ (l : List σ) (ft : List (σ × Nat)) (s : σ),
      s ∈ (List.foldl bumpFreq ft l).map Prod.fst ↔
        (s ∈ ft.map Prod.fst ∨ s ∈ l) := by
  intro l
  induction l with
  | nil => intro ft s; simp
  | cons x l ih =>
    intro ft s
    rw [List.foldl_cons, ih]
    rw [keys_bumpFreq]
    by_cases hx : x ∈ ft.map Prod.fst
    · rw [if_pos hx]
      constructor
      · rintro (h | h)
        · exact Or.inl h
        · exact Or.inr (List.mem_cons_of_mem x h)
      · rintro (h | h)
        · exact Or.inl h
        · rcases List.mem_cons.mp h with h' | h'
          · rw [h']; exact Or.inl hx
          · exact Or.inr h'
    · rw [if_neg hx]
      constructor
      · rintro (h | h)
        · rcases List.mem_append.mp h with h' | h'
          · exact Or.inl h'
          · rw [List.mem_singleton.mp h']
            exact Or.inr (List.mem_cons_self x l)
        · exact Or.inr (List.mem_cons_of_mem x h)
      · rintro (h | h)
        · exact Or.inl (List.mem_append.mpr (Or.inl h))
        · rcases List.mem_cons.mp h with h' | h'
          · rw [h']
            exact Or.inl (List.mem_append.mpr (Or.inr (List.mem_singleton.mpr rfl)))
          · exact Or.inr h'

theorem mem_keys_buildFreq {σ : Type} [DecidableEq σ] (l : List σ) (s : σ) :
    s ∈ (buildFrequencyTable l).map Prod.fst ↔ s ∈ l := by
  unfold buildFrequencyTable
  rw [keys_foldl_bumpFreq_mem]
  simp

theorem keys_foldl_bumpFreq_nodup {σ : Type} [DecidableEq σ] :
    ∀ (l : List σ) (ft : List (σ × Nat)), ((ft.map Prod.fst).Nodup) →
      ((List.foldl bumpFreq ft l).map Prod.fst).Nodup := by
  intro l
  induction l with
  | nil => intro ft h; exact h
  | cons x l ih =>
    intro ft h
    rw [List.foldl_cons]
    apply ih
    rw [keys_bumpFreq]
    by_cases hx : x ∈ ft.map Prod.fst
    · rw [if_pos hx]; exact h
    · rw [if_neg hx]
      rw [List.nodup_append]
      exact ⟨h, List.nodup_singleton x, by simpa using hx⟩

theorem buildFreq_nodup {σ : Type} [DecidableEq σ] (l : List σ) :
    ((buildFrequencyTable l).map Prod.fst).Nodup :=
  keys_foldl_bumpFreq_nodup l [] (by simp)

theorem buildFreq_ne_nil {σ : Type} [DecidableEq σ] (l : List σ) (h : l ≠ []) :
    buildFrequencyTable l ≠ [] := by
  intro hft
  match l, h with
  | x :: l, _ =>
    have : x ∈ (buildFrequencyTable (x :: l)).map Prod.fst :=
      (mem_keys_buildFreq _ _).mpr (List.mem_cons_self x l)
    rw [hft] at this
    cases this

/-- `buildHuffmanTree` on any nonempty table: a proper, non-leaf root
whose leaf symbols are exactly the table keys. -/
theorem tree_for_nonempty {σ : Type} [DecidableEq σ] (ft : List (σ × Nat))
    (hne : ft ≠ []) :
    ∃ root, buildHuffmanTree ft = some root ∧ Proper root ∧
      root.isLeaf = false ∧
      List.Perm (leavesChars root) (ft.map (fun e => some e.1)) := by
  match ft, hne with
  | [e], _ =>
    refine ⟨.nodeL none e.2 (.leaf (some e.1) e.2), buildHuffmanTree_single e,
      Proper.nodeL e.2 (Proper.leaf e.1 e.2), rfl, ?_⟩
    simp [leavesChars]
  | e₁ :: e₂ :: ft', _ =>
    obtain ⟨t, h1, ⟨f, l, r, hlr⟩, hProper, hperm⟩ :=
      buildHuffmanTree_spec Proper Proper.leaf
        (fun l r hl hr => Proper.nodeLR _ hl hr)
        (e₁ :: e₂ :: ft') (by simp)
    refine ⟨t, h1, hProper, ?_, hperm⟩
    rw [hlr]
    rfl

/-- Every symbol appearing among the leaves of a non-leaf root has a
code in the table, and that code drives the decoder back to the
symbol. -/
theorem codes_spec {σ : Type} [DecidableEq σ] (root : HTree σ)
    (hroot : root.isLeaf = false) (s : σ) (hs : some s ∈ leavesChars root) :
    ∃ code, List.lookup (some s) (buildCodes root) = some code ∧
      Decodes root code (some s) := by
  have hcodes : buildCodes root = collectCodes root [] := by
    unfold buildCodes
    rw [if_neg (by simp [hroot])]
  have hkeys : (collectCodes root []).map Prod.fst = leavesChars root :=
    collect_keys root []
  obtain ⟨code, hcode⟩ : ∃ code, List.lookup (some s) (collectCodes root [])
      = some code := by
    apply lookup_of_mem_keys
    rw [hkeys]
    exact hs
  have hmem : (some s, code) ∈ collectCodes root [] := lookup_mem hcode
  rcases collect_decodes root [] (some s) code hmem with ⟨hlf, _, _⟩ | ⟨suf, hsuf, hdec⟩
  · rw [hroot] at hlf; cases hlf
  · rw [hcodes, hcode]
    refine ⟨code, rfl, ?_⟩
    rw [hsuf, List.nil_append]
    exact hdec

theorem huffman_roundtrip {σ : Type} [DecidableEq σ] (v : JsValue σ)
    (h : v.list ≠ []) :
    ∃ p, huffmanCompress (some v) = .ok p ∧
      huffmanDecompress (some p) = .ok v.toResult := by
  obtain ⟨root, htree, hProper, hleaf, hperm⟩ :=
    tree_for_nonempty (buildFrequencyTable v.list) (buildFreq_ne_nil v.list h)
  refine ⟨⟨some (packChunks
      (v.list.flatMap fun c => ((buildCodes root).lookup (some c)).getD []).length
      (v.list.flatMap fun c => ((buildCodes root).lookup (some c)).getD [])),
    some (serializeTree root), some v.list.length,
    some ((8 - (v.list.flatMap fun c =>
      ((buildCodes root).lookup (some c)).getD []).length % 8) % 8),
    some v.isArr⟩, ?_, ?_⟩
  · simp only [huffmanCompress, if_neg h, htree]
  · have hall : ∀ s ∈ v.list,
        Decodes root (((buildCodes root).lookup (some s)).getD []) (some s) := by
      intro s hs
      have hsk : some s ∈ leavesChars root := by
        refine hperm.mem_iff.mpr ?_
        rw [List.mem_map]
        obtain ⟨e, he, hes⟩ := List.mem_map.mp
          ((mem_keys_buildFreq v.list s).mpr hs)
        exact ⟨e, he, by rw [hes]⟩
      obtain ⟨code, hcode, hdec⟩ := codes_spec root hleaf s hsk
      rw [hcode]
      exact hdec
    simp only [huffmanDecompress]
    rw [deserialize_serialize root hProper]
    rw [unpack_pack _ _ (le_refl _)]
    set bits := v.list.flatMap fun c => ((buildCodes root).lookup (some c)).getD []
      with hbits
    set pb := (8 - bits.length % 8) % 8 with hpb
    have htrim : (if (some pb).getD 0 > 0 then
        (bits ++ List.replicate pb false).take
          ((bits ++ List.replicate pb false).length - (some pb).getD 0)
        else bits ++ List.replicate pb false) = bits := by
      simp only [Option.getD_some]
      by_cases hpb0 : pb > 0
      · rw [if_pos hpb0]
        have hlen : (bits ++ List.replicate pb false).length - pb = bits.length := by
          simp
        rw [hlen]
        exact List.take_left' rfl
      · rw [if_neg hpb0]
        have : pb = 0 := by omega
        rw [this]
        simp
    rw [htrim]
    rw [decodeBits_flatMap root hleaf _ v.list hall []]
    simp only [List.reverse_nil, List.nil_append, Option.getD_some]
    rw [ite_isArr_toResult]

/-! ### Prefix-freedom and payload-validation support -/

theorem singleton_prefix_singleton {α : Type} {a b : α} (h : [a] <+: [b]) :
    a = b := by
  obtain ⟨t, ht⟩ := h
  simp only [List.singleton_append, List.cons.injEq] at ht
  exact ht.1

theorem cross_not_prefix (pre : List Bool) (b₁ b₂ : Bool) (hb : b₁ ≠ b₂)
    {c₁ c₂ : List Bool} (h₁ : (pre ++ [b₁]) <+: c₁) (h₂ : (pre ++ [b₂]) <+: c₂) :
    ¬ c₁ <+: c₂ := by
  intro hc
  have hf : (pre ++ [b₁]) <+: c₂ := h₁.trans hc
  rcases List.prefix_or_prefix_of_prefix hf h₂ with h | h
  · exact hb (singleton_prefix_singleton ((List.prefix_append_right_inj pre).mp h))
  · exact hb (singleton_prefix_singleton
      ((List.prefix_append_right_inj pre).mp h)).symm

theorem collect_prefix_free {σ : Type} :
    ∀ (t : HTree σ) (pre : List Bool) (p q : Option σ × List Bool),
      p ∈ collectCodes t pre → q ∈ collectCodes t pre → p.1 ≠ q.1 →
      ¬ p.2 <+: q.2 := by
  intro t
  induction t with
  | leaf c f =>
    intro pre p q hp hq hne
    simp only [collectCodes, List.mem_singleton] at hp hq
    rw [hp, hq] at hne
    exact absurd rfl hne
  | nodeL c f l ihl =>
    intro pre p q hp hq hne
    exact ihl _ p q hp hq hne
  | nodeR c f r ihr =>
    intro pre p q hp hq hne
    exact ihr _ p q hp hq hne
  | nodeLR c f l r ihl ihr =>
    intro pre p q hp hq hne
    rcases List.mem_append.mp hp with hp' | hp' <;>
      rcases List.mem_append.mp hq with hq' | hq'
    · exact ihl _ p q hp' hq' hne
    · exact cross_not_prefix pre false true (by simp)
        (collect_pre l _ p hp') (collect_pre r _ q hq')
    · exact cross_not_prefix pre true false (by simp)
        (collect_pre r _ p hp') (collect_pre l _ q hq')
    · exact ihr _ p q hp' hq' hne

theorem collect_code_longer {σ : Type} (t : HTree σ) (ht : t.isLeaf = false)
    (pre : List Bool) (p : Option σ × List Bool) (hp : p ∈ collectCodes t pre) :
    pre.length < p.2.length := by
  match t, ht with
  | .nodeL c f l, _ =>
    have := collect_pre l (pre ++ [false]) p hp
    have hlen := this.length_le
    simp only [List.length_append, List.length_singleton] at hlen
    omega
  | .nodeR c f r, _ =>
    have := collect_pre r (pre ++ [true]) p hp
    have hlen := this.length_le
    simp only [List.length_append, List.length_singleton] at hlen
    omega
  | .nodeLR c f l r, _ =>
    rcases List.mem_append.mp hp with h | h
    · have := collect_pre l (pre ++ [false]) p h
      have hlen := this.length_le
      simp only [List.length_append, List.length_singleton] at hlen
      omega
    · have := collect_pre r (pre ++ [true]) p h
      have hlen := this.length_le
      simp only [List.length_append, List.length_singleton] at hlen
      omega

theorem decodeBits_error_msg {σ : Type} (root : HTree σ) :
    ∀ (bits : List Bool) (cur : HTree σ) (acc : List (Option σ)) (e : String),
      decodeBits root cur bits acc = .error e →
      e = "TypeError: Cannot read properties of null (reading 'isLeaf')" := by
  intro bits
  induction bits with
  | nil => intro cur acc e he; simp [decodeBits] at he
  | cons b rest ih =>
    intro cur acc e he
    rw [decodeBits] at he
    by_cases hroot : root.isLeaf = true
    · rw [if_pos (by simp [hroot])] at he
      exact ih _ _ _ he
    · rw [if_neg hroot] at he
      rcases hc : (if b then cur.right else cur.left) with _ | nxt
      · simp only [hc, Except.error.injEq] at he
        exact he.symm
      · simp only [hc] at he
        by_cases hn : nxt.isLeaf = true
        · rw [if_pos (by simp [hn])] at he
          exact ih _ _ _ he
        · rw [if_neg hn] at he
          exact ih _ _ _ he


/-! ## Claims -/

/-- C1: for every non-empty input sequence (string or byte-array domain),
decoding the payload produced by the matching encoder returns the input
exactly, in the same domain, for Huffman, basic RLE, and adaptive RLE. -/
theorem claim_C1_roundtrip (σ : Type) [DecidableEq σ] (v : JsValue σ)
    (h : v.list ≠ []) :
    (∃ p, huffmanCompress (some v) = .ok p ∧
      huffmanDecompress (some p) = .ok v.toResult) ∧
    (∃ p, rleCompress (some v) = .ok p ∧
      rleDecompress (some p) = .ok v.toResult) ∧
    (∃ p, rleCompressAdvanced (some v) = .ok p ∧
      rleDecompressAdvanced (some p) = .ok v.toResult) :=
  ⟨huffman_roundtrip v h, rle_basic_roundtrip v h, rle_adv_roundtrip v h⟩

/-- C1 witness: the three round trips at the concrete input "abb". -/
theorem claim_C1_roundtrip_witness :
    (∃ p, huffmanCompress (some (JsValue.str ['a', 'b', 'b'])) = .ok p ∧
      huffmanDecompress (some p) = .ok (JsValue.str ['a', 'b', 'b']).toResult) ∧
    (∃ p, rleCompress (some (JsValue.str ['a', 'b', 'b'])) = .ok p ∧
      rleDecompress (some p) = .ok (JsValue.str ['a', 'b', 'b']).toResult) ∧
    (∃ p, rleCompressAdvanced (some (JsValue.str ['a', 'b', 'b'])) = .ok p ∧
      rleDecompressAdvanced (some p)
        = .ok (JsValue.str ['a', 'b', 'b']).toResult) :=
  claim_C1_roundtrip Char (JsValue.str ['a', 'b', 'b']) (by decide)

/-- C2 counterexample: a Huffman payload recording `originalLength = 5`
whose bits decode to 8 symbols is returned successfully by
`huffmanDecompress` instead of failing with a length-mismatch error. -/
theorem claim_C2_counterexample :
    huffmanDecompress (some (⟨some [0], some (.leaf (some 'a') 1), some 5,
        some 0, some false⟩ : HPayload Char))
      = .ok (JsResult.str (List.replicate 8 (some 'a'))) ∧
    (List.replicate 8 (some 'a' : Option Char)).length ≠ 5 :=
  ⟨by decide, by decide⟩

/-- C2 amended: `huffmanDecompress` performs no post-decode length
check: its result is entirely independent of the payload's
`originalLength` field, so a payload whose decoded symbol count differs
from `originalLength` is returned rather than rejected. -/
theorem claim_C2_no_length_check (σ : Type) (p : HPayload σ)
    (n₁ n₂ : Option Nat) :
    huffmanDecompress (some (setOriginalLength p n₁))
      = huffmanDecompress (some (setOriginalLength p n₂)) := rfl

/-- C3: for every frequency table with at least one symbol and distinct
keys, `buildCodes (buildHuffmanTree ft)` assigns exactly one non-empty
code to each symbol of the table — the code-table keys are a permutation
of the table's (distinct) symbols — and no code is a prefix of a
different symbol's code. -/
theorem claim_C3_prefix_free (σ : Type) [DecidableEq σ] (ft : List (σ × Nat))
    (hne : ft ≠ []) (_hnd : (ft.map Prod.fst).Nodup) :
    ∃ root, buildHuffmanTree ft = some root ∧
      List.Perm ((buildCodes root).map Prod.fst)
        (ft.map (fun e => some e.1)) ∧
      (∀ p ∈ buildCodes root, p.2 ≠ []) ∧
      (∀ p ∈ buildCodes root, ∀ q ∈ buildCodes root, p.1 ≠ q.1 →
        ¬ p.2 <+: q.2) := by
  obtain ⟨root, htree, _, hleaf, hperm⟩ := tree_for_nonempty ft hne
  have hcodes : buildCodes root = collectCodes root [] := by
    unfold buildCodes
    rw [if_neg (by simp [hleaf])]
  refine ⟨root, htree, ?_, ?_, ?_⟩
  · rw [hcodes, collect_keys]
    exact hperm
  · intro p hp
    rw [hcodes] at hp
    have hlong := collect_code_longer root hleaf [] p hp
    simp only [List.length_nil] at hlong
    intro hnil
    rw [hnil] at hlong
    simp at hlong
  · intro p hp q hq hne'
    rw [hcodes] at hp hq
    exact collect_prefix_free root [] p q hp hq hne'

/-- C3 witness: the table `{a: 1, b: 2}`. -/
theorem claim_C3_prefix_free_witness :
    ∃ root, buildHuffmanTree [(('a' : Char), 1), ('b', 2)] = some root ∧
      List.Perm ((buildCodes root).map Prod.fst)
        ([(('a' : Char), 1), ('b', 2)].map (fun e => some e.1)) ∧
      (∀ p ∈ buildCodes root, p.2 ≠ []) ∧
      (∀ p ∈ buildCodes root, ∀ q ∈ buildCodes root, p.1 ≠ q.1 →
        ¬ p.2 <+: q.2) :=
  claim_C3_prefix_free Char [('a', 1), ('b', 2)] (by decide) (by decide)

/-- C4 counterexample: a payload with packed bytes and tree present but
`paddingBits` and `isArrayData` missing decodes successfully instead of
failing with `MalformedPayloadError`, refuting "missing any required
field fails". -/
theorem claim_C4_counterexample :
    huffmanDecompress (some (⟨some [0], some (.leaf (some 'a') 1), some 8,
        none, none⟩ : HPayload Char))
      = .ok (JsResult.str (List.replicate 8 (some 'a'))) := by
  decide

/-- C4 amended: `huffmanDecompress` fails with `MalformedPayloadError`
(`'Invalid compressed data format'`) exactly when the payload is absent
or is missing its packed-bytes (`encodedData`) or serialized-tree field;
missing `originalLength`, `paddingBits`, or the domain flag do not
trigger the error.  In particular a payload missing its packed bytes
does fail with this error. -/
theorem claim_C4_malformed (σ : Type) (input : Option (HPayload σ)) :
    huffmanDecompress input = .error "Invalid compressed data format" ↔
      (input = none ∨ ∃ p, input = some p ∧
        (p.encodedData = none ∨ p.tree = none)) := by
  cases input with
  | none => simp [huffmanDecompress]
  | some p =>
    obtain ⟨ed, tr, ol, pb, ar⟩ := p
    cases ed with
    | none =>
      cases tr with
      | none => simp [huffmanDecompress]
      | some st => simp [huffmanDecompress]
    | some bytes =>
      cases tr with
      | none => simp [huffmanDecompress]
      | some st =>
        have hrhs : ¬ (some (⟨some bytes, some st, ol, pb, ar⟩ : HPayload σ)
            = none ∨ ∃ p, some (⟨some bytes, some st, ol, pb, ar⟩ : HPayload σ)
              = some p ∧ (p.encodedData = none ∨ p.tree = none)) := by
          rintro (h | ⟨q, hq, hfield⟩)
          · exact Option.noConfusion h
          · injection hq with hq'
            subst hq'
            rcases hfield with hf | hf <;> simp at hf
        refine iff_of_false ?_ hrhs
        intro he
        simp only [huffmanDecompress] at he
        split at he
        · rename_i e heq
          injection he with he'
          have hmsg := decodeBits_error_msg _ _ _ _ _ heq
          rw [he'] at hmsg
          exact absurd hmsg (by decide)
        · simp at he

/-- C5: the adaptive scan classifies every emitted item by run length —
`run` items carry a count ≥ 4, `short_run` a count in [2,3], and
`sequence` items hold between 1 and 255 non-repeating symbols — and an
input of 255 distinct symbols followed by a 256th encodes as exactly two
`sequence` items of lengths 255 and 1. -/
theorem claim_C5_classification (σ : Type) [DecidableEq σ] (v : JsValue σ)
    (p : RlePayload σ) (items : List (RleItemJS σ)) (it : RleItemJS σ)
    (h1 : rleCompressAdvanced (some v) = .ok p)
    (h2 : p.compressed = some items) (h3 : it ∈ items) :
    advItemShape it ∧
    rleCompressAdvanced (some (JsValue.arr (List.range 256))) = .ok
      ⟨some [⟨"sequence", none, none, some (List.range 255)⟩,
             ⟨"sequence", none, none, some [255]⟩], some 256, some true,
       some "advanced_rle"⟩ := by
  constructor
  · by_cases hv : v.list = []
    · simp only [rleCompressAdvanced, if_pos hv] at h1
      cases h1
    · simp only [rleCompressAdvanced, if_neg hv] at h1
      injection h1 with h1'
      rw [← h1'] at h2
      simp only at h2
      injection h2 with h2'
      rw [← h2'] at h3
      exact rleCompressAdvCore_shape _ _ it h3
  · decide

/-- C5 witness: applied to the run input `[0,0,0,0,0]`, whose single
item is a `run` of count 5. -/
theorem claim_C5_classification_witness :
    advItemShape (⟨"run", some 0, some 5, none⟩ : RleItemJS Nat) ∧
    rleCompressAdvanced (some (JsValue.arr (List.range 256))) = .ok
      ⟨some [⟨"sequence", none, none, some (List.range 255)⟩,
             ⟨"sequence", none, none, some [255]⟩], some 256, some true,
       some "advanced_rle"⟩ :=
  claim_C5_classification Nat (JsValue.arr [0, 0, 0, 0, 0])
    ⟨some [⟨"run", some 0, some 5, none⟩], some 5, some true,
     some "advanced_rle"⟩
    [⟨"run", some 0, some 5, none⟩] ⟨"run", some 0, some 5, none⟩
    (by decide) (by decide) (by decide)

/-- C6 counterexample: on the single-symbol table `{a: 5}` the returned
root is an internal (non-leaf) node whose `right` child is `null`, so
not every internal node owns exactly two children. -/
theorem claim_C6_counterexample :
    buildHuffmanTree [(('a' : Char), 5)]
        = some (.nodeL none 5 (.leaf (some 'a') 5)) ∧
    (HTree.nodeL none 5 (.leaf (some 'a') 5) : HTree Char).isLeaf = false ∧
    (HTree.nodeL none 5 (.leaf (some 'a') 5) : HTree Char).right = none := by
  refine ⟨by decide, rfl, rfl⟩

/-- C6 amended: for tables with at least two distinct symbols, every
internal node of the returned tree owns exactly two children whose
frequencies sum to its own — the invariant holding at every merge step —
while a single-symbol table yields a wrapper internal node with only a
left child carrying that leaf's frequency. -/
theorem claim_C6_merge_invariant (σ : Type) [DecidableEq σ]
    (ft : List (σ × Nat)) (hne : ft ≠ []) :
    ∃ root, buildHuffmanTree ft = some root ∧
      (2 ≤ ft.length → sumInv root = true) ∧
      (∀ e, ft = [e] → root = .nodeL none e.2 (.leaf (some e.1) e.2)) := by
  match ft, hne with
  | [e], _ =>
    refine ⟨.nodeL none e.2 (.leaf (some e.1) e.2), buildHuffmanTree_single e,
      ?_, ?_⟩
    · intro h2
      simp at h2
    · intro e' he'
      injection he' with h1 _
      rw [← h1]
  | e₁ :: e₂ :: ft', _ =>
    obtain ⟨t, h1, _, hsum, _⟩ :=
      buildHuffmanTree_spec (fun t => sumInv t = true)
        (fun c f => rfl)
        (fun l r hl hr => by simp [sumInv, hl, hr])
        (e₁ :: e₂ :: ft') (by simp)
    refine ⟨t, h1, fun _ => hsum, ?_⟩
    intro e he
    simp at he

/-- C6 amended witness: the two-symbol table `{a: 1, b: 2}`. -/
theorem claim_C6_merge_invariant_witness :
    ∃ root, buildHuffmanTree [(('a' : Char), 1), ('b', 2)] = some root ∧
      (2 ≤ ([(('a' : Char), 1), ('b', 2)] : List (Char × Nat)).length →
        sumInv root = true) ∧
      (∀ e, [(('a' : Char), 1), ('b', 2)] = [e] →
        root = .nodeL none e.2 (.leaf (some e.1) e.2)) :=
  claim_C6_merge_invariant Char [('a', 1), ('b', 2)] (by decide)

/-- C7: an RLE payload containing an item whose tag the codec does not
define makes the decoder fail with `UnknownItemTypeError`: the basic
decoder throws its constant `'Invalid compressed item type'` message,
the adaptive decoder the tag-carrying variant (provided its well-formed
`sequence` items carry their symbol list, which encoder-produced
payloads always do). -/
theorem claim_C7_unknown_tag (σ : Type) (p : RlePayload σ)
    (items : List (RleItemJS σ)) (hc : p.compressed = some items) :
    ((∃ it ∈ items, ¬ recognizedBasic it) →
      rleDecompress (some p) = .error "Invalid compressed item type") ∧
    ((∀ it ∈ items, it.type = "sequence" → it.elements ≠ none) →
      (∃ it ∈ items, ¬ recognizedAdv it) →
      ∃ it ∈ items, ¬ recognizedAdv it ∧
        rleDecompressAdvanced (some p)
          = .error ("Invalid compressed item type: " ++ it.type)) := by
  constructor
  · intro hbad
    have hex := rleExpandBasic_unknown items hbad
    simp only [rleDecompress, hc, hex]
  · intro hseq hbad
    obtain ⟨it, hmem, hrec, herr⟩ := rleExpandAdv_unknown items hseq hbad
    refine ⟨it, hmem, hrec, ?_⟩
    simp only [rleDecompressAdvanced, hc, herr]

/-- C7 witness: a payload holding the single item tagged "bogus" fails
both decoders with the unknown-item-type error. -/
theorem claim_C7_unknown_tag_witness :
    ((∃ it ∈ [(⟨"bogus", none, none, none⟩ : RleItemJS Char)],
        ¬ recognizedBasic it) →
      rleDecompress (some (⟨some [⟨"bogus", none, none, none⟩], some 1,
          some false, none⟩ : RlePayload Char))
        = .error "Invalid compressed item type") ∧
    ((∀ it ∈ [(⟨"bogus", none, none, none⟩ : RleItemJS Char)],
        it.type = "sequence" → it.elements ≠ none) →
      (∃ it ∈ [(⟨"bogus", none, none, none⟩ : RleItemJS Char)],
        ¬ recognizedAdv it) →
      ∃ it ∈ [(⟨"bogus", none, none, none⟩ : RleItemJS Char)],
        ¬ recognizedAdv it ∧
        rleDecompressAdvanced (some (⟨some [⟨"bogus", none, none, none⟩],
            some 1, some false, none⟩ : RlePayload Char))
          = .error ("Invalid compressed item type: " ++ it.type)) :=
  claim_C7_unknown_tag Char
    ⟨some [⟨"bogus", none, none, none⟩], some 1, some false, none⟩
    [⟨"bogus", none, none, none⟩] rfl

/-- C8: the three compressors fail with `EmptyInputError`
(`'Input data is empty'`) exactly when the input is absent or has zero
length, and return a payload on every non-empty input. -/
theorem claim_C8_empty_input (σ : Type) [DecidableEq σ] (v : JsValue σ)
    (h : v.list ≠ []) :
    (∃ p, huffmanCompress (some v) = .ok p) ∧
    (∃ p, rleCompress (some v) = .ok p) ∧
    (∃ p, rleCompressAdvanced (some v) = .ok p) ∧
    (∀ w : Option (JsValue σ), (w = none ∨ ∃ u, w = some u ∧ u.list = []) →
      huffmanCompress w = .error "Input data is empty" ∧
      rleCompress w = .error "Input data is empty" ∧
      rleCompressAdvanced w = .error "Input data is empty") := by
  obtain ⟨ph, hph, _⟩ := huffman_roundtrip v h
  refine ⟨⟨ph, hph⟩,
    ⟨⟨some (rleCompressCore v.list.length v.list), some v.list.length,
      some v.isArr, none⟩, by simp [rleCompress, h]⟩,
    ⟨⟨some (rleCompressAdvCore v.list.length v.list), some v.list.length,
      some v.isArr, some "advanced_rle"⟩, by simp [rleCompressAdvanced, h]⟩, ?_⟩
  rintro w (rfl | ⟨u, rfl, hu⟩)
  · exact ⟨rfl, rfl, rfl⟩
  · exact ⟨by simp [huffmanCompress, hu], by simp [rleCompress, hu],
      by simp [rleCompressAdvanced, hu]⟩

/-- C8 witness: the singleton string "a". -/
theorem claim_C8_empty_input_witness :
    (∃ p, huffmanCompress (some (JsValue.str ['a'])) = .ok p) ∧
    (∃ p, rleCompress (some (JsValue.str ['a'])) = .ok p) ∧
    (∃ p, rleCompressAdvanced (some (JsValue.str ['a'])) = .ok p) ∧
    (∀ w : Option (JsValue Char),
      (w = none ∨ ∃ u, w = some u ∧ u.list = []) →
      huffmanCompress w = .error "Input data is empty" ∧
      rleCompress w = .error "Input data is empty" ∧
      rleCompressAdvanced w = .error "Input data is empty") :=
  claim_C8_empty_input Char (JsValue.str ['a']) (by decide)

/-- C9: basic RLE compresses "aaaabbbcc" to exactly
`[Run{a,4}, Run{b,3}, Run{c,2}]` and decompressing that payload restores
"aaaabbbcc". -/
theorem claim_C9_scenario :
    rleCompress (some (JsValue.str "aaaabbbcc".toList)) = .ok
      ⟨some [⟨"run", some 'a', some 4, none⟩, ⟨"run", some 'b', some 3, none⟩,
             ⟨"run", some 'c', some 2, none⟩], some 9, some false, none⟩ ∧
    rleDecompress (some ⟨some [⟨"run", some 'a', some 4, none⟩,
        ⟨"run", some 'b', some 3, none⟩, ⟨"run", some 'c', some 2, none⟩],
        some 9, some false, none⟩)
      = .ok (JsResult.str ("aaaabbbcc".toList.map some)) :=
  ⟨by decide, by decide⟩

/-- C10: the adaptive decoder also recognizes the basic codec's
`single` tag, so it decodes every payload the basic compressor
produces back to the original input. -/
theorem claim_C10_cross_decode (σ : Type) [DecidableEq σ] (v : JsValue σ)
    (h : v.list ≠ []) :
    ∃ p, rleCompress (some v) = .ok p ∧
      rleDecompressAdvanced (some p) = .ok v.toResult := by
  refine ⟨⟨some (rleCompressCore v.list.length v.list), some v.list.length,
    some v.isArr, none⟩, ?_, ?_⟩
  · simp [rleCompress, h]
  · simp only [rleDecompressAdvanced,
      rleExpandAdv_basicCore v.list.length v.list (le_refl _)]
    simp [ite_isArr_toResult]

/-- C10 witness: the mixed input "abb" (one single item, one run item). -/
theorem claim_C10_cross_decode_witness :
    ∃ p, rleCompress (some (JsValue.str ['a', 'b', 'b'])) = .ok p ∧
      rleDecompressAdvanced (some p)
        = .ok (JsValue.str ['a', 'b', 'b']).toResult :=
  claim_C10_cross_decode Char (JsValue.str ['a', 'b', 'b']) (by decide)
